import Mathlib

/-!
Verification of the turn-execution core of the `agent` CLI repository.

This file shallowly embeds, in Lean 4, the parts of the source that the
frozen claims are about:

* `src/agent_runner.py`: `extract_result_preview`, the exit-code classifier
  shared by `process_agent_chunk` / `process_tools_chunk`, and
  `run_agent_with_display`;
* `src/tool_status_display.py`: the `ToolStatusDisplay` registry state
  machine (`register_calls`, `update_status`, `get_tool_call`, `clear`,
  `finalize`), with terminal rendering abstracted to an append-only list of
  permanent output events;
* `src/cancel.py`: cooperative cancellation, modelled as the chunk index
  from which the token is observed set;
* `src/session_store.py`: the `SessionAutosaver` single-slot mailbox.

Python strings are modelled as `List Char`; Python `dict` (insertion
ordered) as an association list; fallible parsing as `Option`.
-/

namespace AgentSpec

/-- Python `str.isspace` / the whitespace set stripped by `str.strip()` and
`str.rstrip()`: ASCII whitespace, the C1 separators, and the Unicode space
separators. -/
def pyIsSpace (c : Char) : Bool :=
  let n := c.toNat
  (9 ≤ n && n ≤ 13) || (28 ≤ n && n ≤ 31) || n == 32 || n == 0x85 || n == 0xa0 ||
    n == 0x1680 || (0x2000 ≤ n && n ≤ 0x200a) || n == 0x2028 || n == 0x2029 ||
    n == 0x202f || n == 0x205f || n == 0x3000

/-- Python `str.isprintable`. Exact on ASCII and Latin-1 controls; characters
above U+009F are approximated as printable except the Unicode space/line/
paragraph separators (which Python also rejects). -/
def pyIsPrintable (c : Char) : Bool :=
  let n := c.toNat
  !(n < 32 || n == 0x7f || (0x80 ≤ n && n ≤ 0x9f) || (pyIsSpace c && n != 32))

/-- `leadsWith pat s` is true when `pat` occurs at the start of `s`. -/
def leadsWith : List Char → List Char → Bool
  | [], _ => true
  | _ :: _, [] => false
  | p :: ps, c :: cs => p == c && leadsWith ps cs

/-- Python `s.split(pat, 1)` when `pat` occurs in `s`: the first occurrence of
`pat` splits `s` into `(before, after)`. `none` when `pat` does not occur. -/
def splitFirst (pat : List Char) : List Char → Option (List Char × List Char)
  | [] => if leadsWith pat [] then some ([], ([] : List Char).drop pat.length) else none
  | c :: rest =>
    if leadsWith pat (c :: rest) then some ([], (c :: rest).drop pat.length)
    else
      match splitFirst pat rest with
      | some (b, a) => some (c :: b, a)
      | none => none

/-- Python `pat in s` (for the nonempty literal patterns the source uses). -/
def pyContains (pat s : List Char) : Bool :=
  (splitFirst pat s).isSome

/-- Python `s.split(pat, 1)[0]`: everything before the first occurrence of
`pat`, or all of `s` when `pat` does not occur. -/
def beforeFirst (pat s : List Char) : List Char :=
  match splitFirst pat s with
  | some (b, _) => b
  | none => s

/-- Python `s.rstrip()`: drop trailing whitespace. -/
def pyRstrip (s : List Char) : List Char :=
  (s.reverse.dropWhile pyIsSpace).reverse

/-- Python `s.strip()`: drop leading and trailing whitespace. -/
def pyStrip (s : List Char) : List Char :=
  ((s.dropWhile pyIsSpace).reverse.dropWhile pyIsSpace).reverse

/-- Python `s.rstrip("\n")`: drop trailing newline characters. -/
def dropTrailNl (s : List Char) : List Char :=
  (s.reverse.dropWhile (fun c => c == '\n')).reverse

/-- Python `s.split("\n")`: always at least one part; `n` separators give
`n + 1` parts. -/
def splitOnNl : List Char → List (List Char)
  | [] => [[]]
  | c :: rest =>
    match splitOnNl rest with
    | h :: t => if c == '\n' then [] :: h :: t else (c :: h) :: t
    | [] => [[]]

/-- Python `"\n".join(lines)`. -/
def joinNl : List (List Char) → List Char
  | [] => []
  | [l] => l
  | l :: ls => l ++ '\n' :: joinNl ls

/-- Decimal digit value. -/
def digitVal (c : Char) : Option Nat :=
  if '0' ≤ c ∧ c ≤ '9' then some (c.toNat - '0'.toNat) else none

def parseDigitsAux : List Char → Nat → Option Nat
  | [], acc => some acc
  | c :: cs, acc =>
    match digitVal c with
    | some d => parseDigitsAux cs (acc * 10 + d)
    | none => none

/-- A nonempty all-digit numeral. -/
def parseDigits : List Char → Option Nat
  | [] => none
  | cs => parseDigitsAux cs 0

/-- Python `int(s)` on an already-stripped string: optional sign followed by
decimal digits (digit-group underscores and non-ASCII digits are not
modelled; the source only ever feeds it shell exit codes). `none` models the
`ValueError` the source catches. -/
def pyInt (cs : List Char) : Option Int :=
  match cs with
  | '+' :: rest => (parseDigits rest).map Int.ofNat
  | '-' :: rest => (parseDigits rest).map (fun n => -(Int.ofNat n))
  | _ => (parseDigits cs).map Int.ofNat

/-- The literal marker `"(exit code:"` from `agent_runner.py`. -/
def markerChars : List Char := "(exit code:".data

/-- `agent_runner.extract_result_preview`, step 1: if the content contains
the exit-code marker, keep only what precedes it and strip trailing
whitespace (`content.split("(exit code:", 1)[0].rstrip()`). -/
def stripMarker (content : List Char) : List Char :=
  if pyContains markerChars content then pyRstrip (beforeFirst markerChars content)
  else content

/-- `extract_result_preview`, step 2: drop leading and trailing empty lines.
The source finds the first and last non-empty line index and slices; for a
line list that is the same as dropping the run of `""` lines at each end
(and yields `[]` exactly when every line is empty, the source's
early-return-`""` case). -/
def trimOuter (lines : List (List Char)) : List (List Char) :=
  ((lines.dropWhile fun l => l.isEmpty).reverse.dropWhile fun l => l.isEmpty).reverse

/-- The per-line cleanup in the preview loop: keep printable characters and
tabs. -/
def pyClean (line : List Char) : List Char :=
  line.filter fun c => pyIsPrintable c || c == '\t'

/-- Python `cleaned[:max_line_length - 3]`, with Python's negative-index
slicing semantics when `max_line_length < 3`. -/
def pySliceTo (n : Int) (l : List Char) : List Char :=
  if 0 ≤ n then l.take n.toNat else l.take (l.length - n.natAbs)

/-- One line of the preview loop body: clean, then truncate to
`max_line_length` characters with a `"..."` suffix if over. -/
def cleanLine (maxLineLength : Nat) (line : List Char) : List Char :=
  let cleaned := pyClean line
  if maxLineLength < cleaned.length then
    pySliceTo ((maxLineLength : Int) - 3) cleaned ++ ['.', '.', '.']
  else cleaned

/-- The preview loop of `extract_result_preview`: stop before adding any
further line once `max_lines` non-empty lines have been collected. -/
def previewLoop (maxLines maxLineLength : Nat) : List (List Char) → Nat → List (List Char)
  | [], _ => []
  | l :: rest, cnt =>
    if maxLines ≤ cnt then []
    else
      cleanLine maxLineLength l ::
        previewLoop maxLines maxLineLength rest (if l.isEmpty then cnt else cnt + 1)

/-- The trimmed line list `extract_result_preview` works on: marker
stripped, split into lines, leading/trailing empty lines dropped (the
source's `lines = raw_lines[first_non_empty : last_non_empty + 1]`, with
`[]` for the all-blank early-return case). -/
def trimmedOf (content : List Char) : List (List Char) :=
  trimOuter (splitOnNl (stripMarker content))

/-- `extract_result_preview` on string content (`List Char` form). The
source's locals are written out: `previewLoop … (trimmedOf content) 0` is
`preview_lines`, the `any` condition is `truncated`, and the last `if`
is the `preview.rstrip("\n")` / `"…"` assembly. -/
def extractCore (content : List Char) (maxLines maxLineLength : Nat) : List Char :=
  if (trimmedOf content).isEmpty then []
  else
    if ((trimmedOf content).drop
          (previewLoop maxLines maxLineLength (trimmedOf content) 0).length).any
        (fun l => !l.isEmpty) then
      if (dropTrailNl (joinNl (previewLoop maxLines maxLineLength (trimmedOf content) 0))).isEmpty
      then ['…']
      else
        dropTrailNl (joinNl (previewLoop maxLines maxLineLength (trimmedOf content) 0)) ++
          ['\n', '…']
    else joinNl (previewLoop maxLines maxLineLength (trimmedOf content) 0)

/-- `agent_runner.extract_result_preview`. `none` models a non-`str`
argument (the `isinstance` guard); the source's defaults are
`max_lines = 30`, `max_line_length = 120`. -/
def extract_result_preview (content : Option String) (maxLines maxLineLength : Nat) : String :=
  match content with
  | none => ""
  | some s => String.mk (extractCore s.data maxLines maxLineLength)

/-! ### The tool-call status state machine (`tool_status_display.py`) -/

/-- `ToolStatus` from `tool_status_display.py`. -/
inductive ToolStatus where
  | pending
  | running
  | done
  | error
deriving DecidableEq, Repr

/-- A status is terminal when the display settles the call on it. -/
def ToolStatus.isTerminal (st : ToolStatus) : Bool :=
  st = ToolStatus.done || st = ToolStatus.error

/-- The `ToolCall` dataclass. Argument values are modelled as strings (the
display only ever formats them). -/
structure ToolCall where
  id : String
  name : String
  args : List (String × String)
  status : ToolStatus
  result : Option String
deriving DecidableEq, Repr

/-- A tool-call registration payload `{id, name, args}`. -/
structure RegCall where
  id : String
  name : String
  args : List (String × String)
deriving DecidableEq, Repr

/-- A permanent (append-only, non-redrawable) output record: one panel
printed to the console's scrollback via `console.print(self._tool_panel(tc))`,
carrying the `ToolCall` snapshot it rendered. -/
inductive OutEvent where
  | panel (tc : ToolCall)
deriving DecidableEq, Repr

/-- Ghost observable: one accepted registry mutation. `registered id` is
emitted when `register_calls` adds an entry (in `PENDING` state);
`statusSet id st` when `update_status` finds the entry and applies `st`.
Rejected updates (unknown or retired id) emit nothing. -/
inductive DispEvent where
  | registered (id : String)
  | statusSet (id : String) (st : ToolStatus)
deriving DecidableEq, Repr

/-- The `ToolStatusDisplay` state. `active` models the insertion-ordered
`_active_tool_calls` dict; `output` the permanent console scrollback;
`liveEnabled` the (per-process constant) `_live_enabled()` flag;
`live` whether a Rich `Live` region is currently running; `events` is the
ghost trace of accepted mutations since the last `clear()`. -/
structure DisplayState where
  active : List (String × ToolCall)
  output : List OutEvent
  liveEnabled : Bool
  live : Bool
  events : List DispEvent
deriving DecidableEq, Repr

/-- Ordered-dict lookup: `self._active_tool_calls.get(id)`. -/
def lookupActive (l : List (String × ToolCall)) (id : String) : Option ToolCall :=
  match l with
  | [] => none
  | p :: rest => if p.1 = id then some p.2 else lookupActive rest id

/-- Ordered-dict assignment `self._active_tool_calls[id] = tc`: replace in
place when present, else append. -/
def setActive (l : List (String × ToolCall)) (id : String) (tc : ToolCall) :
    List (String × ToolCall) :=
  match l with
  | [] => [(id, tc)]
  | p :: rest => if p.1 = id then (id, tc) :: rest else p :: setActive rest id tc

/-- Ordered-dict removal `self._active_tool_calls.pop(id, None)` (keys are
unique, so removing the entry is dropping every pair with that key). -/
def removeActive (l : List (String × ToolCall)) (id : String) :
    List (String × ToolCall) :=
  l.filter fun p => !decide (p.1 = id)

/-- One step of the registration loop body of `register_calls`:
`self._active_tool_calls[tc.id] = tc` with a fresh `PENDING` `ToolCall`. -/
def regFoldStep (d : DisplayState) (call : RegCall) : DisplayState :=
  { d with
    active := setActive d.active call.id ⟨call.id, call.name, call.args, .pending, none⟩
    events := d.events ++ [DispEvent.registered call.id] }

/-- `ToolStatusDisplay.register_calls`: add each payload as a new `PENDING`
entry; in live mode (re)start the live region, otherwise print a panel for
every active call. -/
def registerCalls (d : DisplayState) (calls : List RegCall) : DisplayState :=
  let d := calls.foldl regFoldStep d
  if d.liveEnabled then { d with live := true }
  else { d with output := d.output ++ d.active.map fun p => .panel p.2 }

/-- The in-place mutation `tc.status = status; if result: tc.result =
result` that `update_status` performs on the found entry. -/
def appliedCall (tc : ToolCall) (st : ToolStatus) (result : Option String) : ToolCall :=
  { tc with
    status := st
    result :=
      match result with
      | some r => if r ≠ "" then some r else tc.result
      | none => tc.result }

/-- `ToolStatusDisplay.update_status`. Unknown ids are silent no-ops. In
display-disabled mode the updated panel is printed unconditionally and the
entry stays active. In live mode a terminal status retires the entry from
the active set and prints its final panel exactly once; a non-terminal
status just updates the entry. -/
def updateStatus (d : DisplayState) (id : String) (st : ToolStatus)
    (result : Option String) : DisplayState :=
  match lookupActive d.active id with
  | none => d
  | some tc =>
    if d.liveEnabled = false then
      { d with
        active := setActive d.active id (appliedCall tc st result)
        output := d.output ++ [OutEvent.panel (appliedCall tc st result)]
        events := d.events ++ [DispEvent.statusSet id st] }
    else
      if st.isTerminal then
        { d with
          live := true
          active := removeActive d.active id
          output := d.output ++ [OutEvent.panel (appliedCall tc st result)]
          events := d.events ++ [DispEvent.statusSet id st] }
      else
        { d with
          live := true
          active := setActive d.active id (appliedCall tc st result)
          events := d.events ++ [DispEvent.statusSet id st] }

/-- `ToolStatusDisplay.get_tool_call`. -/
def getToolCall (d : DisplayState) (id : String) : Option ToolCall :=
  lookupActive d.active id

/-- `ToolStatusDisplay.clear`: stop live rendering and discard all per-turn
state (the ghost trace is per-turn and resets with it; the permanent
scrollback is not erasable). -/
def clearDisp (d : DisplayState) : DisplayState :=
  { d with live := false, active := [], events := [] }

/-- `ToolStatusDisplay.finalize`: stop live rendering only. -/
def finalizeDisp (d : DisplayState) : DisplayState :=
  { d with live := false }

/-- Number of settled (terminal-status) panels for `id` in the permanent
output stream. -/
def settledPanelCount (id : String) (out : List OutEvent) : Nat :=
  out.countP fun e =>
    match e with
    | .panel tc => decide (tc.id = id) && tc.status.isTerminal

/-- An externally applied display operation (for stating trace invariants
over arbitrary continuations of a run). -/
inductive DispOp where
  | register (calls : List RegCall)
  | update (id : String) (st : ToolStatus) (r : Option String)
  | clearOp
  | finalizeOp
deriving DecidableEq, Repr

def applyOp (d : DisplayState) : DispOp → DisplayState
  | .register calls => registerCalls d calls
  | .update id st r => updateStatus d id st r
  | .clearOp => clearDisp d
  | .finalizeOp => finalizeDisp d

def applyOps (d : DisplayState) (ops : List DispOp) : DisplayState :=
  ops.foldl applyOp d

/-- `op` registers (an entry for) `id`. -/
def opRegistersId (id : String) : DispOp → Bool
  | .register calls => calls.any fun c => c.id = id
  | _ => false

/-! ### The chunk classifier (`agent_runner.process_agent_chunk` /
`process_tools_chunk`) -/

/-- Parse of the exit-code marker:
`int(content.split("(exit code:", 1)[1].split(")", 1)[0].strip())`,
with `none` for the caught `Exception`. -/
def parsedExitCode (content : List Char) : Option Int :=
  match splitFirst markerChars content with
  | none => none
  | some (_, after) => pyInt (pyStrip (beforeFirst [')'] after))

/-- The preview passed to the display: the `search_replace` tool keeps its
content verbatim, every other tool goes through `extract_result_preview`
with the default limits. Non-string content (`none`) degrades to `""`. -/
def previewFor (name : Option String) (content : Option String) : String :=
  if name = some "search_replace" then
    match content with
    | some s => s
    | none => ""
  else extract_result_preview content 30 120

/-- The terminal status and result argument that `process_agent_chunk` /
`process_tools_chunk` pass to `update_status` for one `ToolMessage`:
a parseable nonzero exit code gives `ERROR` with the raw content, anything
else gives `DONE` with the preview. -/
def classifyToolResult (name : Option String) (content : Option String) :
    ToolStatus × String :=
  match content with
  | some s =>
    if pyContains markerChars s.data then
      match parsedExitCode s.data with
      | some n => if n ≠ 0 then (.error, s) else (.done, previewFor name content)
      | none => (.done, previewFor name content)
    else (.done, previewFor name content)
  | none => (.done, previewFor name content)

/-! ### Chunks, messages and the turn runner (`run_agent_with_display`) -/

/-- One content block of a Responses-API `AIMessage` whose `content` is a
list: a `{"type": "text", "text": t}` dict with a string `t`, or anything
else. -/
inductive Block where
  | textB (t : String)
  | otherB
deriving DecidableEq, Repr

/-- `AIMessage.content`: a plain string or a list of content blocks. -/
inductive AIContent where
  | str (s : String)
  | blocks (bs : List Block)
deriving DecidableEq, Repr

/-- A streamed message: an `AIMessage` (content plus tool-call requests), a
`ToolMessage` (`name`, `content` — `none` models non-string content — and
`tool_call_id`), or any other `BaseMessage` (ignored by both processors). -/
inductive Msg where
  | ai (content : AIContent) (toolCalls : List RegCall)
  | tool (name : Option String) (content : Option String) (toolCallId : String)
  | otherMsg
deriving DecidableEq, Repr

/-- One chunk of the agent stream: a tagged mapping with exactly one of the
keys `"model"` or `"tools"`, each holding a message list. -/
inductive Chunk where
  | model (msgs : List Msg)
  | tools (msgs : List Msg)
deriving DecidableEq, Repr

/-- The Responses-API normalization in `run_agent_with_display`: when the
last message of a `"model"` chunk is an `AIMessage` whose content is a block
list with at least one nonempty text block, replace it by a fresh
`AIMessage` whose content is the text parts joined by newlines (the fresh
message carries no tool calls). -/
def rewriteModelMessages (msgs : List Msg) : List Msg :=
  match msgs.getLast? with
  | some (.ai (.blocks bs) _) =>
    let parts := bs.filterMap fun b =>
      match b with
      | .textB t => if t ≠ "" then some t else none
      | .otherB => none
    if parts ≠ [] then msgs.dropLast ++ [.ai (.str (String.intercalate "\n" parts)) []]
    else msgs
  | _ => msgs

/-- Shared `ToolMessage` handling of both processors: classify the result
and apply the terminal status update. -/
def processToolMessage (name : Option String) (content : Option String)
    (toolCallId : String) (d : DisplayState) : DisplayState :=
  updateStatus d toolCallId (classifyToolResult name content).1
    (some (classifyToolResult name content).2)

/-- The `new_calls` list of `process_agent_chunk`: the requests whose id has
not been seen yet this turn. -/
def newCallsOf (tcs : List RegCall) (seen : List String) : List RegCall :=
  tcs.filter fun tc => !decide (tc.id ∈ seen)

/-- The `RUNNING` sweep after registration: mark each newly registered call
running. -/
def markRunning (d : DisplayState) (new : List RegCall) : DisplayState :=
  new.foldl (fun d tc => updateStatus d tc.id .running none) d

/-- One step of `process_agent_chunk`: an `AIMessage` with tool calls
registers the not-yet-seen ones (in `PENDING`) and immediately marks them
`RUNNING`; a `ToolMessage` is classified and settled; anything else is
skipped. -/
def stepAgentMsg (acc : List String × DisplayState) : Msg → List String × DisplayState
  | .ai _ tcs =>
    if tcs.isEmpty then acc
    else if (newCallsOf tcs acc.1).isEmpty then acc
    else
      (acc.1 ++ (newCallsOf tcs acc.1).map fun tc => tc.id,
        markRunning (registerCalls acc.2 (newCallsOf tcs acc.1)) (newCallsOf tcs acc.1))
  | .tool name content tid => (acc.1, processToolMessage name content tid acc.2)
  | .otherMsg => acc

/-- `agent_runner.process_agent_chunk`. -/
def processAgentChunk (msgs : List Msg) (seen : List String) (d : DisplayState) :
    List String × DisplayState :=
  msgs.foldl stepAgentMsg (seen, d)

/-- `agent_runner.process_tools_chunk` (only `ToolMessage`s are handled). -/
def processToolsChunk (msgs : List Msg) (d : DisplayState) : DisplayState :=
  msgs.foldl
    (fun d m =>
      match m with
      | .tool name content tid => processToolMessage name content tid d
      | _ => d)
    d

/-- The cancellation token as observed by the turn loop: `cancel()` is a
one-way flag set asynchronously, and `check()` is polled once per chunk
(before processing it), so a run observes it as "raises from the `k`-th
between-chunk check onward". `none` is a token that is never cancelled (or
no token at all). -/
def cancelSeenAt (cancelAt : Option Nat) (i : Nat) : Bool :=
  match cancelAt with
  | some k => k ≤ i
  | none => false

/-- The chunk loop of `run_agent_with_display`: poll the token, classify the
chunk, accumulate its (normalized) messages. `AgentCancelled` propagates to
the handler, which finalizes the display and returns `[]`. -/
def runLoop (cancelAt : Option Nat) :
    List Chunk → Nat → List Msg → List String → DisplayState →
    List Msg × DisplayState
  | [], _, acc, _, d => (acc, finalizeDisp d)
  | c :: rest, i, acc, seen, d =>
    if cancelSeenAt cancelAt i then ([], finalizeDisp d)
    else
      match c with
      | .model msgs =>
        let msgs := rewriteModelMessages msgs
        let res := processAgentChunk msgs seen d
        runLoop cancelAt rest (i + 1) (acc ++ msgs) res.1 res.2
      | .tools msgs =>
        runLoop cancelAt rest (i + 1) (acc ++ msgs) seen (processToolsChunk msgs d)

/-- `agent_runner.run_agent_with_display`: clear the display, consume the
stream, and return the accumulated messages with the final display state
(empty message list when cancelled mid-stream). -/
def runAgent (d0 : DisplayState) (chunks : List Chunk) (cancelAt : Option Nat) :
    List Msg × DisplayState :=
  runLoop cancelAt chunks 0 [] [] (clearDisp d0)

/-- All messages carried by a chunk list, in arrival order. -/
def flatMessages (chunks : List Chunk) : List Msg :=
  chunks.flatMap fun c =>
    match c with
    | .model msgs => msgs
    | .tools msgs => msgs

/-! ### Ghost-trace observables -/

/-- The status history of one tool-call id: registrations record the
`PENDING` state the entry is created in, accepted updates record the status
applied. -/
def statusHistory (id : String) (evs : List DispEvent) : List ToolStatus :=
  evs.filterMap fun e =>
    match e with
    | .registered i => if i = id then some .pending else none
    | .statusSet i st => if i = id then some st else none

/-- How many times `id` was registered. -/
def registerCount (id : String) (evs : List DispEvent) : Nat :=
  evs.countP fun e =>
    match e with
    | .registered i => decide (i = id)
    | .statusSet _ _ => false

/-- `id` occurs as a tool-call request in some `"model"` chunk. -/
def requestedIn (chunks : List Chunk) (id : String) : Bool :=
  chunks.any fun c =>
    match c with
    | .model msgs =>
      msgs.any fun m =>
        match m with
        | .ai _ tcs => tcs.any fun tc => tc.id = id
        | _ => false
    | .tools _ => false

/-- The message list a chunk carries. -/
def chunkMsgs : Chunk → List Msg
  | .model msgs => msgs
  | .tools msgs => msgs

/-- Stream well-formedness from the data model (§3: "Identity is the id,
unique within a turn"): no single `AIMessage` requests the same id twice.
(Duplicates across messages are already handled by the seen-set.) -/
def nodupRequests (chunks : List Chunk) : Prop :=
  ∀ c ∈ chunks, ∀ m ∈ chunkMsgs c,
    ∀ content tcs, m = Msg.ai content tcs → (tcs.map fun tc => tc.id).Nodup

/-- No `"model"` chunk triggers the Responses-API content-block
normalization. -/
def noRewrite (chunks : List Chunk) : Prop :=
  ∀ msgs, Chunk.model msgs ∈ chunks → rewriteModelMessages msgs = msgs

/-! ### The coalescing autosaver (`session_store.SessionAutosaver`) -/

/-- The autosaver's shared state: the lock-guarded single-slot mailbox
(`_latest_messages`), the wake event, the stop flag, and the ghost list of
persisted writes (`save_messages` calls) in order. A snapshot is a message
list, with messages abstracted to strings. -/
structure AutosaverState where
  latest : Option (List String)
  eventSet : Bool
  stopFlag : Bool
  writes : List (List String)
deriving DecidableEq, Repr

/-- Fresh autosaver: empty mailbox, worker blocked on the event, nothing
written. -/
def autosaverInit : AutosaverState :=
  { latest := none, eventSet := false, stopFlag := false, writes := [] }

/-- `SessionAutosaver.request_save`: overwrite the single pending slot and
signal the worker. -/
def requestSave (s : AutosaverState) (msgs : List String) : AutosaverState :=
  { s with latest := some msgs, eventSet := true }

/-- `SessionAutosaver.close`: set the stop flag and signal the worker. -/
def closeAutosaver (s : AutosaverState) : AutosaverState :=
  { s with stopFlag := true, eventSet := true }

/-- One iteration of the worker loop `_run`: wait for the event (modelled as
a no-op returning `false` = still blocked when the event is clear), clear
it, take-and-clear the pending snapshot, persist it if present, and exit
when stopped with an empty slot. Returns the new state and whether the
worker terminated. -/
def workerStep (s : AutosaverState) : AutosaverState × Bool :=
  if s.eventSet = false then (s, false)
  else
    let s := { s with eventSet := false }
    let taken := s.latest
    let s := { s with latest := none }
    let s :=
      match taken with
      | some m => { s with writes := s.writes ++ [m] }
      | none => s
    if s.stopFlag ∧ s.latest = none then (s, true) else (s, false)

/-- A fresh display in the default (live-enabled) mode. -/
def displayInit : DisplayState :=
  { active := [], output := [], liveEnabled := true, live := false, events := [] }

/-- A fresh display with live updates disabled (`AGENT_NO_LIVE=1`). -/
def displayInitNoLive : DisplayState :=
  { active := [], output := [], liveEnabled := false, live := false, events := [] }

/-! ### Specification bundles (conclusions of the larger claim theorems) -/

/-- The preview-derivation contract of `extract_result_preview` (claim C4):
per-line truncation to `maxLineLength` characters with a `"..."` suffix;
with `K` the number of non-empty lines after marker-strip and outer-blank
trim, `K ≤ maxLines` renders every trimmed line (internal blanks verbatim,
no ellipsis; verbatim when no line needs cleaning), and `K > maxLines`
keeps a prefix with exactly `maxLines` non-empty lines, leaves non-blank
content behind, and appends the ellipsis marker line. -/
def PreviewSpec (content : List Char) (ml mll : Nat) : Prop :=
  (∀ line : List Char, mll < (pyClean line).length →
      cleanLine mll line = (pyClean line).take (mll - 3) ++ ['.', '.', '.'] ∧
      (cleanLine mll line).length = mll) ∧
  (∀ line : List Char, (pyClean line).length ≤ mll → cleanLine mll line = pyClean line) ∧
  ((trimmedOf content).countP (fun l => !l.isEmpty) ≤ ml →
      extractCore content ml mll = joinNl ((trimmedOf content).map (cleanLine mll))) ∧
  ((trimmedOf content).countP (fun l => !l.isEmpty) ≤ ml →
      (∀ l ∈ trimmedOf content, cleanLine mll l = l) →
      extractCore content ml mll = joinNl (trimmedOf content)) ∧
  (ml < (trimmedOf content).countP (fun l => !l.isEmpty) →
      ∃ kept rest, trimmedOf content = kept ++ rest ∧
        (kept.countP fun l => !l.isEmpty) = ml ∧
        0 < (rest.countP fun l => !l.isEmpty) ∧
        ((∀ l ∈ kept, cleanLine mll l = l) →
          extractCore content ml mll = joinNl kept ++ ['\n', '…']))

/-- The per-id registry invariant maintained throughout a turn (live mode):
an id is either unseen (no history, not active), or seen exactly once with
history `PENDING, RUNNING` while active, or settled with history
`PENDING, RUNNING, terminal` and retired from the active set. -/
def TurnInv (id : String) (seen : List String) (d : DisplayState) : Prop :=
  (¬ id ∈ seen ∧ statusHistory id d.events = [] ∧ registerCount id d.events = 0 ∧
      lookupActive d.active id = none) ∨
  (id ∈ seen ∧ registerCount id d.events = 1 ∧
    ((statusHistory id d.events = [ToolStatus.pending, ToolStatus.running] ∧
        lookupActive d.active id ≠ none) ∨
     ((statusHistory id d.events = [ToolStatus.pending, ToolStatus.running, ToolStatus.done] ∨
       statusHistory id d.events =
         [ToolStatus.pending, ToolStatus.running, ToolStatus.error]) ∧
        lookupActive d.active id = none)))

/-- The lifecycle contract of one turn (claim C5): per tool-call id, the
accepted status sequence is a subsequence of
`PENDING → RUNNING → {DONE | ERROR}` with at most one terminal status and
nothing after it; an id is registered at most once; a registered id is
created `PENDING` and immediately transitioned to `RUNNING`; and (absent
cancellation and the content-block rewrite) every requested id is
registered exactly once. -/
def LifecycleSpec (d0 : DisplayState) (chunks : List Chunk) (cancelAt : Option Nat)
    (id : String) : Prop :=
  (∃ t, (t = ToolStatus.done ∨ t = ToolStatus.error) ∧
      List.Sublist (statusHistory id (runAgent d0 chunks cancelAt).2.events)
        [ToolStatus.pending, ToolStatus.running, t]) ∧
  registerCount id (runAgent d0 chunks cancelAt).2.events ≤ 1 ∧
  (registerCount id (runAgent d0 chunks cancelAt).2.events = 1 →
      ∃ tail, statusHistory id (runAgent d0 chunks cancelAt).2.events =
        ToolStatus.pending :: ToolStatus.running :: tail) ∧
  (cancelAt = none → noRewrite chunks → requestedIn chunks id = true →
      registerCount id (runAgent d0 chunks cancelAt).2.events = 1)

/-!
## Theorems

First the supporting lemma library, then one theorem per claim (with its
witness or counterexample where required).
-/

/-! ### Preview lemma library (for claims C4 and C10) -/

theorem getLast?_mem_of_eq {α : Type _} {l : List α} {x : α} (h : l.getLast? = some x) :
    x ∈ l := by
  obtain ⟨hne, hx⟩ := List.mem_getLast?_eq_getLast (Option.mem_def.mpr h)
  rw [hx]
  exact List.getLast_mem hne

theorem head?_dropWhile_false {α : Type _} (p : α → Bool) (l : List α) (a : α)
    (h : (l.dropWhile p).head? = some a) : p a = false := by
  induction l with
  | nil => simp [List.dropWhile] at h
  | cons x t ih =>
    rw [List.dropWhile_cons] at h
    by_cases hx : p x = true
    · rw [if_pos hx] at h
      exact ih h
    · rw [if_neg hx] at h
      simp only [List.head?_cons, Option.some.injEq] at h
      rw [← h]
      cases hpx : p x
      · rfl
      · exact absurd hpx hx

theorem trimOuter_noTrailEmpty (lines : List (List Char)) :
    ∀ l, (trimOuter lines).getLast? = some l → l.isEmpty = false := by
  intro l hl
  unfold trimOuter at hl
  rw [List.getLast?_reverse] at hl
  exact head?_dropWhile_false _ _ _ hl

theorem trimOuter_eq_nil_of_all_empty (lines : List (List Char))
    (h : ∀ l ∈ lines, l.isEmpty = true) : trimOuter lines = [] := by
  unfold trimOuter
  have h1 : lines.dropWhile (fun l => l.isEmpty) = [] :=
    List.dropWhile_eq_nil_iff.mpr h
  rw [h1]
  rfl

theorem previewLoop_stop (ml mll : Nat) (lines : List (List Char)) (cnt : Nat)
    (h : ml ≤ cnt) : previewLoop ml mll lines cnt = [] := by
  cases lines with
  | nil => rfl
  | cons l rest => simp only [previewLoop, if_pos h]

/-- When at most `ml - cnt` non-empty lines remain and the line list does
not end in an empty line, the preview loop keeps (and cleans) every line. -/
theorem previewLoop_all (ml mll : Nat) (lines : List (List Char)) :
    ∀ cnt : Nat, cnt + lines.countP (fun l => !l.isEmpty) ≤ ml →
      (∀ l, lines.getLast? = some l → l.isEmpty = false) →
      previewLoop ml mll lines cnt = lines.map (cleanLine mll) := by
  induction lines with
  | nil => intro cnt _ _; rfl
  | cons l rest ih =>
    intro cnt hcnt hnt
    have hbreak : ¬ ml ≤ cnt := by
      intro hle
      have hz : (l :: rest).countP (fun x => !x.isEmpty) = 0 := by omega
      have hall := List.countP_eq_zero.mp hz
      have hne : (l :: rest) ≠ [] := by simp
      have hlast := List.getLast?_eq_getLast_of_ne_nil hne
      have hmem : (l :: rest).getLast hne ∈ l :: rest := List.getLast_mem hne
      have h1 : ((l :: rest).getLast hne).isEmpty = true := by
        have := hall _ hmem
        simpa using this
      have h2 := hnt _ hlast
      rw [h2] at h1
      cases h1
    simp only [previewLoop, if_neg hbreak]
    have hnt2 : ∀ x, rest.getLast? = some x → x.isEmpty = false := by
      intro x hx
      apply hnt
      cases rest with
      | nil => simp at hx
      | cons r t => rw [List.getLast?_cons_cons]; exact hx
    by_cases hle : l.isEmpty = true
    · rw [if_pos hle]
      have hcnt2 : cnt + rest.countP (fun x => !x.isEmpty) ≤ ml := by
        rw [List.countP_cons] at hcnt
        simp [hle] at hcnt
        omega
      rw [ih cnt hcnt2 hnt2]
      rfl
    · rw [if_neg hle]
      have hcnt2 : cnt + 1 + rest.countP (fun x => !x.isEmpty) ≤ ml := by
        rw [List.countP_cons] at hcnt
        have : (!l.isEmpty) = true := by
          cases hb : l.isEmpty
          · rfl
          · exact absurd hb hle
        simp [this] at hcnt
        omega
      rw [ih (cnt + 1) hcnt2 hnt2]
      rfl

/-- When more than `ml - cnt` non-empty lines remain, the preview loop keeps
a proper prefix ending at the line that brings the count to `ml`. -/
theorem previewLoop_trunc (ml mll : Nat) (lines : List (List Char)) :
    ∀ cnt : Nat, cnt < ml → ml < cnt + lines.countP (fun l => !l.isEmpty) →
      ∃ kept rest lastk, lines = kept ++ rest ∧
        kept.getLast? = some lastk ∧ lastk.isEmpty = false ∧
        previewLoop ml mll lines cnt = kept.map (cleanLine mll) ∧
        cnt + kept.countP (fun l => !l.isEmpty) = ml := by
  induction lines with
  | nil => intro cnt h1 h2; simp at h2; omega
  | cons l rest ih =>
    intro cnt h1 h2
    simp only [previewLoop, if_neg (Nat.not_le_of_lt h1)]
    by_cases hle : l.isEmpty = true
    · rw [if_pos hle]
      have h2' : ml < cnt + rest.countP (fun x => !x.isEmpty) := by
        rw [List.countP_cons] at h2
        simp [hle] at h2
        omega
      obtain ⟨kept, rest', lastk, hsplit, hlast, hlne, hloop, hcnt⟩ := ih cnt h1 h2'
      have hkne : kept ≠ [] := by
        intro h0
        rw [h0] at hlast
        simp at hlast
      refine ⟨l :: kept, rest', lastk, by rw [hsplit]; rfl, ?_, hlne, ?_, ?_⟩
      · cases kept with
        | nil => exact absurd rfl hkne
        | cons k kt => rw [List.getLast?_cons_cons]; exact hlast
      · rw [hloop]; rfl
      · rw [List.countP_cons]
        simp [hle]
        omega
    · rw [if_neg hle]
      have hlt : (!l.isEmpty) = true := by
        cases hb : l.isEmpty
        · rfl
        · exact absurd hb hle
      have hlf : l.isEmpty = false := by
        cases hb : l.isEmpty
        · rfl
        · exact absurd hb hle
      by_cases heq : cnt + 1 = ml
      · refine ⟨[l], rest, l, by simp, by simp, hlf, ?_, ?_⟩
        · rw [previewLoop_stop ml mll rest (cnt + 1) (by omega)]
          rfl
        · simp [List.countP_cons, hlt]
          omega
      · have h1' : cnt + 1 < ml := by omega
        have h2' : ml < cnt + 1 + rest.countP (fun x => !x.isEmpty) := by
          rw [List.countP_cons] at h2
          simp [hlt] at h2
          omega
        obtain ⟨kept, rest', lastk, hsplit, hlast, hlne, hloop, hcnt⟩ := ih (cnt + 1) h1' h2'
        have hkne : kept ≠ [] := by
          intro h0
          rw [h0] at hlast
          simp at hlast
        refine ⟨l :: kept, rest', lastk, by rw [hsplit]; rfl, ?_, hlne, ?_, ?_⟩
        · cases kept with
          | nil => exact absurd rfl hkne
          | cons k kt => rw [List.getLast?_cons_cons]; exact hlast
        · rw [hloop]; rfl
        · rw [List.countP_cons]
          simp [hlt]
          omega

theorem cleanLine_of_long (mll : Nat) (line : List Char) (h3 : 3 ≤ mll)
    (h : mll < (pyClean line).length) :
    cleanLine mll line = (pyClean line).take (mll - 3) ++ ['.', '.', '.'] ∧
    (cleanLine mll line).length = mll := by
  have heq : cleanLine mll line = (pyClean line).take (mll - 3) ++ ['.', '.', '.'] := by
    unfold cleanLine
    rw [if_pos h]
    unfold pySliceTo
    rw [if_pos (by omega : (0 : Int) ≤ (mll : Int) - 3)]
    have : ((mll : Int) - 3).toNat = mll - 3 := by omega
    rw [this]
  refine ⟨heq, ?_⟩
  rw [heq, List.length_append, List.length_take]
  simp
  omega

theorem cleanLine_of_short (mll : Nat) (line : List Char)
    (h : (pyClean line).length ≤ mll) : cleanLine mll line = pyClean line := by
  unfold cleanLine
  rw [if_neg (by omega)]

theorem cleanLine_stable_clean (mll : Nat) (line : List Char) (h3 : 3 ≤ mll)
    (h : cleanLine mll line = line) : pyClean line = line := by
  by_cases hlen : mll < (pyClean line).length
  · have h2 := (cleanLine_of_long mll line h3 hlen).2
    rw [h] at h2
    have hle : (pyClean line).length ≤ line.length := List.length_filter_le _ _
    omega
  · rw [cleanLine_of_short mll line (by omega)] at h
    exact h

theorem cleanLine_stable_no_nl (mll : Nat) (line : List Char) (h3 : 3 ≤ mll)
    (h : cleanLine mll line = line) : '\n' ∉ line := by
  intro hmem
  have hclean := cleanLine_stable_clean mll line h3 h
  have hmem2 : '\n' ∈ pyClean line := hclean.symm ▸ hmem
  have := (List.mem_filter.mp hmem2).2
  simp [pyIsPrintable, pyIsSpace] at this

theorem joinNl_getLast (ks : List (List Char)) (lastk : List Char)
    (hlast : ks.getLast? = some lastk) (hne : lastk ≠ []) (hnl : '\n' ∉ lastk) :
    ∃ c, (joinNl ks).getLast? = some c ∧ c ≠ '\n' := by
  induction ks with
  | nil => simp at hlast
  | cons k rest ih =>
    cases rest with
    | nil =>
      have hk : k = lastk := by simpa using hlast
      refine ⟨lastk.getLast hne, ?_, ?_⟩
      · show (k : List Char).getLast? = some (lastk.getLast hne)
        rw [hk]
        exact List.getLast?_eq_getLast_of_ne_nil hne
      · intro hcn
        apply hnl
        rw [← hcn]
        exact List.getLast_mem hne
    | cons k2 rest2 =>
      rw [List.getLast?_cons_cons] at hlast
      obtain ⟨c, hc1, hc2⟩ := ih hlast
      refine ⟨c, ?_, hc2⟩
      show (k ++ '\n' :: joinNl (k2 :: rest2)).getLast? = some c
      rw [List.getLast?_append_of_ne_nil k (by simp)]
      cases hj : joinNl (k2 :: rest2) with
      | nil => rw [hj] at hc1; simp at hc1
      | cons a t =>
        rw [hj] at hc1
        rw [List.getLast?_cons_cons]
        exact hc1

theorem dropTrailNl_of_getLast (cs : List Char) (c : Char)
    (h : cs.getLast? = some c) (hc : c ≠ '\n') : dropTrailNl cs = cs := by
  unfold dropTrailNl
  have hrev : cs.reverse.head? = some c := by rw [List.head?_reverse]; exact h
  cases hcs : cs.reverse with
  | nil => rw [hcs] at hrev; simp at hrev
  | cons a t =>
    rw [hcs] at hrev
    simp only [List.head?_cons, Option.some.injEq] at hrev
    have hbeq : (a == '\n') = false := by simp [hrev, hc]
    have hdw : List.dropWhile (fun x => x == '\n') (a :: t) = a :: t := by
      simp [List.dropWhile_cons, hbeq]
    rw [hdw, ← hcs]
    exact List.reverse_reverse cs

theorem mem_cleanLine (mll : Nat) (line : List Char) (c : Char)
    (h : c ∈ cleanLine mll line) : pyIsPrintable c = true ∨ c = '\t' := by
  have hfilter : ∀ x : Char, x ∈ pyClean line → pyIsPrintable x = true ∨ x = '\t' := by
    intro x hx
    have := (List.mem_filter.mp hx).2
    rcases Bool.or_eq_true_iff.mp this with h1 | h2
    · exact Or.inl h1
    · exact Or.inr (by simpa using h2)
  unfold cleanLine at h
  by_cases hlen : mll < (pyClean line).length
  · rw [if_pos hlen] at h
    rcases List.mem_append.mp h with h1 | h2
    · apply hfilter
      unfold pySliceTo at h1
      by_cases h0 : (0 : Int) ≤ (mll : Int) - 3
      · rw [if_pos h0] at h1; exact List.take_subset _ _ h1
      · rw [if_neg h0] at h1; exact List.take_subset _ _ h1
    · have : c = '.' := by simpa using h2
      rw [this]
      exact Or.inl (by decide)
  · rw [if_neg hlen] at h
    exact hfilter c h

theorem mem_previewLoop (ml mll : Nat) (lines : List (List Char)) :
    ∀ (cnt : Nat) (x : List Char), x ∈ previewLoop ml mll lines cnt →
      ∃ l, x = cleanLine mll l := by
  induction lines with
  | nil => intro cnt x h; simp [previewLoop] at h
  | cons l rest ih =>
    intro cnt x h
    simp only [previewLoop] at h
    by_cases hb : ml ≤ cnt
    · rw [if_pos hb] at h; simp at h
    · rw [if_neg hb] at h
      rcases List.mem_cons.mp h with rfl | h2
      · exact ⟨l, rfl⟩
      · exact ih _ x h2

theorem mem_joinNl (ls : List (List Char)) (c : Char) (h : c ∈ joinNl ls) :
    (∃ l ∈ ls, c ∈ l) ∨ c = '\n' := by
  induction ls with
  | nil => simp [joinNl] at h
  | cons l rest ih =>
    cases rest with
    | nil => exact Or.inl ⟨l, by simp, h⟩
    | cons l2 r2 =>
      simp only [joinNl] at h
      rcases List.mem_append.mp h with h1 | h2
      · exact Or.inl ⟨l, by simp, h1⟩
      · rcases List.mem_cons.mp h2 with rfl | h3
        · exact Or.inr rfl
        · rcases ih h3 with ⟨l', hl', hc⟩ | rfl
          · exact Or.inl ⟨l', List.mem_cons.mpr (Or.inr hl'), hc⟩
          · exact Or.inr rfl

theorem mem_dropTrailNl (cs : List Char) (c : Char) (h : c ∈ dropTrailNl cs) :
    c ∈ cs := by
  unfold dropTrailNl at h
  rw [List.mem_reverse] at h
  have h2 := (List.dropWhile_sublist _).subset h
  exact List.mem_reverse.mp h2

/-- With at most `ml` non-empty trimmed lines, every trimmed line is kept
(cleaned) and no ellipsis is appended. -/
theorem extractCore_of_le (content : List Char) (ml mll : Nat)
    (hK : (trimmedOf content).countP (fun l => !l.isEmpty) ≤ ml) :
    extractCore content ml mll = joinNl ((trimmedOf content).map (cleanLine mll)) := by
  unfold extractCore
  by_cases hnil : (trimmedOf content).isEmpty
  · rw [if_pos hnil]
    have h0 : trimmedOf content = [] := List.isEmpty_iff.mp hnil
    rw [h0]
    rfl
  · rw [if_neg hnil]
    have hloop : previewLoop ml mll (trimmedOf content) 0 =
        (trimmedOf content).map (cleanLine mll) :=
      previewLoop_all ml mll (trimmedOf content) 0 (by simpa using hK)
        (fun l hl => trimOuter_noTrailEmpty (splitOnNl (stripMarker content)) l hl)
    rw [hloop, List.length_map, List.drop_length]
    simp only [List.any_nil]
    rw [if_neg (by decide : ¬ (false = true))]

/-- With more than `ml` non-empty trimmed lines, a prefix with exactly `ml`
non-empty lines is kept, non-blank content remains behind, and (when the
kept lines need no cleaning) the ellipsis marker line is appended. -/
theorem extractCore_of_gt (content : List Char) (ml mll : Nat)
    (hml : 1 ≤ ml) (hmll : 3 ≤ mll)
    (hK : ml < (trimmedOf content).countP fun l => !l.isEmpty) :
    ∃ kept rest, trimmedOf content = kept ++ rest ∧
      (kept.countP fun l => !l.isEmpty) = ml ∧
      0 < (rest.countP fun l => !l.isEmpty) ∧
      ((∀ l ∈ kept, cleanLine mll l = l) →
        extractCore content ml mll = joinNl kept ++ ['\n', '…']) := by
  obtain ⟨kept, rest, lastk, hsplit, hlast, hlemp, hloop, hcnt⟩ :=
    previewLoop_trunc ml mll (trimmedOf content) 0 (by omega) (by omega)
  have hkcnt : (kept.countP fun l => !l.isEmpty) = ml := by omega
  have hrest : 0 < (rest.countP fun l => !l.isEmpty) := by
    have h2 := hK
    rw [hsplit, List.countP_append] at h2
    omega
  refine ⟨kept, rest, hsplit, hkcnt, hrest, ?_⟩
  intro hstable
  have hkept : previewLoop ml mll (trimmedOf content) 0 = kept := by
    rw [hloop]
    have h3 : kept.map (cleanLine mll) = kept.map id := List.map_congr_left hstable
    rw [h3, List.map_id]
  have hlastmem : lastk ∈ kept := getLast?_mem_of_eq hlast
  have hlastk_ne : lastk ≠ [] := by
    intro h0
    rw [h0] at hlemp
    simp at hlemp
  have hnl : '\n' ∉ lastk := cleanLine_stable_no_nl mll lastk hmll (hstable lastk hlastmem)
  obtain ⟨c, hc1, hc2⟩ := joinNl_getLast kept lastk hlast hlastk_ne hnl
  have hne_trim : ¬ (trimmedOf content).isEmpty = true := by
    rw [hsplit]
    cases kept with
    | nil => simp at hlast
    | cons k kt => simp
  have hjoin_ne : ¬ (joinNl kept).isEmpty = true := by
    intro h0
    have h1 : joinNl kept = [] := List.isEmpty_iff.mp h0
    rw [h1] at hc1
    simp at hc1
  unfold extractCore
  rw [if_neg hne_trim, hkept]
  have hdrop : (trimmedOf content).drop kept.length = rest := by
    rw [hsplit]
    exact List.drop_left kept rest
  rw [hdrop]
  have hany : rest.any (fun l => !l.isEmpty) = true := by
    rw [List.any_eq_true]
    exact List.countP_pos_iff.mp hrest
  rw [if_pos hany, dropTrailNl_of_getLast (joinNl kept) c hc1 hc2, if_neg hjoin_ne]

/-! ### Claim C4: the preview-derivation contract -/

/-- Claim C4: `extract_result_preview` strips the exit-code marker and
everything after it, trims leading and trailing empty lines while keeping
internal blank lines verbatim, truncates each kept line to `max_line_length`
characters with a `"..."` suffix when cut, keeps at most `max_lines`
non-empty lines, renders a result with `K ≤ max_lines` non-empty lines
unchanged (minus the marker and outer blanks), and for `K > max_lines`
keeps exactly `max_lines` non-empty lines and appends the trailing ellipsis
marker exactly because non-blank content remains beyond them. -/
theorem preview_truncation_spec (content : List Char) (ml mll : Nat)
    (hml : 1 ≤ ml) (hmll : 3 ≤ mll) : PreviewSpec content ml mll := by
  refine ⟨?_, ?_, ?_, ?_, ?_⟩
  · intro line h
    exact cleanLine_of_long mll line hmll h
  · intro line h
    exact cleanLine_of_short mll line h
  · intro hK
    exact extractCore_of_le content ml mll hK
  · intro hK hstable
    rw [extractCore_of_le content ml mll hK]
    have h3 : (trimmedOf content).map (cleanLine mll) = (trimmedOf content).map id :=
      List.map_congr_left hstable
    rw [h3, List.map_id]
  · intro hK
    exact extractCore_of_gt content ml mll hml hmll hK

/-- Witness for `preview_truncation_spec`: the contract at the concrete
content `"L1\nL2\nL3"` with `max_lines = 2`. -/
theorem preview_truncation_spec_witness : PreviewSpec ("L1\nL2\nL3".data) 2 120 :=
  preview_truncation_spec ("L1\nL2\nL3".data) 2 120 (by decide) (by decide)

/-! ### Claim C10: totality and character safety of the preview -/

/-- Claim C10: `extract_result_preview` is total (a Lean function; every
case below is a value, never an exception): non-string content returns
`""`; content whose lines are all empty after the marker strip (including
`""` and marker-only content) returns `""`; and every character of the
returned preview is printable, a tab, or the line separator itself. -/
theorem preview_total_safe (content : Option String) (ml mll : Nat) :
    (content = none → extract_result_preview content ml mll = "") ∧
    (∀ s : String, content = some s →
        (∀ l ∈ splitOnNl (stripMarker s.data), l.isEmpty = true) →
        extract_result_preview content ml mll = "") ∧
    (∀ c ∈ (extract_result_preview content ml mll).data,
        pyIsPrintable c = true ∨ c = '\t' ∨ c = '\n') := by
  refine ⟨?_, ?_, ?_⟩
  · intro h
    rw [h]
    rfl
  · intro s hs hall
    rw [hs]
    show String.mk (extractCore s.data ml mll) = ""
    have h0 : trimmedOf s.data = [] := trimOuter_eq_nil_of_all_empty _ hall
    unfold extractCore
    rw [h0]
    rfl
  · intro c hc
    cases content with
    | none => simp [extract_result_preview] at hc
    | some s =>
      have hc2 : c ∈ extractCore s.data ml mll := hc
      unfold extractCore at hc2
      by_cases h1 : (trimmedOf s.data).isEmpty
      · rw [if_pos h1] at hc2
        simp at hc2
      · rw [if_neg h1] at hc2
        by_cases h2 : ((trimmedOf s.data).drop
            (previewLoop ml mll (trimmedOf s.data) 0).length).any (fun l => !l.isEmpty) = true
        · rw [if_pos h2] at hc2
          by_cases h3 : (dropTrailNl (joinNl (previewLoop ml mll (trimmedOf s.data) 0))).isEmpty = true
          · rw [if_pos h3] at hc2
            have h4 : c = '…' := by simpa using hc2
            rw [h4]
            exact Or.inl (by decide)
          · rw [if_neg h3] at hc2
            rcases List.mem_append.mp hc2 with h4 | h5
            · have h6 := mem_dropTrailNl _ _ h4
              rcases mem_joinNl _ _ h6 with ⟨l, hl, hcl⟩ | rfl
              · obtain ⟨l0, rfl⟩ := mem_previewLoop ml mll _ 0 l hl
                rcases mem_cleanLine mll l0 c hcl with hp | ht
                · exact Or.inl hp
                · exact Or.inr (Or.inl ht)
              · exact Or.inr (Or.inr rfl)
            · rcases List.mem_cons.mp h5 with rfl | h7
              · exact Or.inr (Or.inr rfl)
              · have h8 : c = '…' := by simpa using h7
                rw [h8]
                exact Or.inl (by decide)
        · rw [if_neg h2] at hc2
          rcases mem_joinNl _ _ hc2 with ⟨l, hl, hcl⟩ | rfl
          · obtain ⟨l0, rfl⟩ := mem_previewLoop ml mll _ 0 l hl
            rcases mem_cleanLine mll l0 c hcl with hp | ht
            · exact Or.inl hp
            · exact Or.inr (Or.inl ht)
          · exact Or.inr (Or.inr rfl)

/-- Witness for `preview_total_safe`: non-string content, marker-only
content, and the character-safety clause evaluated on concrete content. -/
theorem preview_total_safe_witness :
    extract_result_preview none 30 120 = "" ∧
    extract_result_preview (some "(exit code: 5)") 30 120 = "" ∧
    (∀ c ∈ (extract_result_preview (some "ok\thi\n\nx") 30 120).data,
        pyIsPrintable c = true ∨ c = '\t' ∨ c = '\n') :=
  ⟨(preview_total_safe none 30 120).1 rfl,
    (preview_total_safe (some "(exit code: 5)") 30 120).2.1 "(exit code: 5)" rfl (by decide),
    (preview_total_safe (some "ok\thi\n\nx") 30 120).2.2⟩

/-! ### Display state-machine lemma library (for claims C1 and C5) -/

/-- The association list backing `_active_tool_calls` always stores each
`ToolCall` under its own id (a `dict` keyed by `tc.id`). -/
def ActiveWF (l : List (String × ToolCall)) : Prop :=
  ∀ p ∈ l, p.2.id = p.1

theorem lookupActive_set_self (l : List (String × ToolCall)) (id : String) (tc : ToolCall) :
    lookupActive (setActive l id tc) id = some tc := by
  induction l with
  | nil => simp [setActive, lookupActive]
  | cons p rest ih =>
    unfold setActive
    by_cases hp : p.1 = id
    · rw [if_pos hp]
      simp [lookupActive]
    · rw [if_neg hp]
      unfold lookupActive
      rw [if_neg hp]
      exact ih

theorem lookupActive_set_ne (l : List (String × ToolCall)) (id id' : String) (tc : ToolCall)
    (h : id ≠ id') : lookupActive (setActive l id tc) id' = lookupActive l id' := by
  induction l with
  | nil => simp [setActive, lookupActive, h]
  | cons p rest ih =>
    unfold setActive
    by_cases hp : p.1 = id
    · rw [if_pos hp]
      unfold lookupActive
      have hne : ¬ (id = id') := h
      rw [if_neg hne, if_neg (by rw [hp]; exact hne)]
    · rw [if_neg hp]
      unfold lookupActive
      by_cases hp' : p.1 = id'
      · rw [if_pos hp', if_pos hp']
      · rw [if_neg hp', if_neg hp']
        exact ih

theorem lookupActive_cons (p : String × ToolCall) (rest : List (String × ToolCall))
    (id : String) :
    lookupActive (p :: rest) id = if p.1 = id then some p.2 else lookupActive rest id :=
  rfl

theorem removeActive_cons_self (p : String × ToolCall) (rest : List (String × ToolCall))
    (id : String) (hp : p.1 = id) : removeActive (p :: rest) id = removeActive rest id := by
  unfold removeActive
  rw [List.filter_cons]
  simp [hp]

theorem removeActive_cons_ne (p : String × ToolCall) (rest : List (String × ToolCall))
    (id : String) (hp : ¬ p.1 = id) :
    removeActive (p :: rest) id = p :: removeActive rest id := by
  unfold removeActive
  rw [List.filter_cons]
  simp [hp]

theorem lookupActive_remove_self (l : List (String × ToolCall)) (id : String) :
    lookupActive (removeActive l id) id = none := by
  induction l with
  | nil => rfl
  | cons p rest ih =>
    by_cases hp : p.1 = id
    · rw [removeActive_cons_self p rest id hp]
      exact ih
    · rw [removeActive_cons_ne p rest id hp, lookupActive_cons, if_neg hp]
      exact ih

theorem lookupActive_remove_ne (l : List (String × ToolCall)) (id id' : String)
    (h : id ≠ id') : lookupActive (removeActive l id) id' = lookupActive l id' := by
  induction l with
  | nil => rfl
  | cons p rest ih =>
    by_cases hp : p.1 = id
    · rw [removeActive_cons_self p rest id hp, ih, lookupActive_cons,
        if_neg (by rw [hp]; exact h)]
    · rw [removeActive_cons_ne p rest id hp, lookupActive_cons, lookupActive_cons]
      by_cases hp' : p.1 = id'
      · rw [if_pos hp', if_pos hp']
      · rw [if_neg hp', if_neg hp']
        exact ih

theorem lookup_id_eq (l : List (String × ToolCall)) (id : String) (tc : ToolCall)
    (hwf : ActiveWF l) (h : lookupActive l id = some tc) : tc.id = id := by
  induction l with
  | nil => simp [lookupActive] at h
  | cons p rest ih =>
    unfold lookupActive at h
    by_cases hp : p.1 = id
    · rw [if_pos hp] at h
      have h2 : p.2 = tc := by simpa using h
      rw [← h2, hwf p (by simp), hp]
    · rw [if_neg hp] at h
      exact ih (fun q hq => hwf q (List.mem_cons.mpr (Or.inr hq))) h

theorem mem_setActive (l : List (String × ToolCall)) (id : String) (tc : ToolCall)
    (p : String × ToolCall) (h : p ∈ setActive l id tc) : p ∈ l ∨ p = (id, tc) := by
  induction l with
  | nil => simp [setActive] at h; exact Or.inr h
  | cons q rest ih =>
    unfold setActive at h
    by_cases hq : q.1 = id
    · rw [if_pos hq] at h
      rcases List.mem_cons.mp h with rfl | h2
      · exact Or.inr rfl
      · exact Or.inl (List.mem_cons.mpr (Or.inr h2))
    · rw [if_neg hq] at h
      rcases List.mem_cons.mp h with rfl | h2
      · exact Or.inl (List.mem_cons.mpr (Or.inl rfl))
      · rcases ih h2 with h3 | h3
        · exact Or.inl (List.mem_cons.mpr (Or.inr h3))
        · exact Or.inr h3

theorem ActiveWF_set (l : List (String × ToolCall)) (id : String) (tc : ToolCall)
    (hwf : ActiveWF l) (htc : tc.id = id) : ActiveWF (setActive l id tc) := by
  intro p hp
  rcases mem_setActive l id tc p hp with h | rfl
  · exact hwf p h
  · exact htc

theorem ActiveWF_remove (l : List (String × ToolCall)) (id : String)
    (hwf : ActiveWF l) : ActiveWF (removeActive l id) := by
  intro p hp
  exact hwf p (List.mem_of_mem_filter hp)

theorem updateStatus_not_found (d : DisplayState) (id : String) (st : ToolStatus)
    (r : Option String) (h : lookupActive d.active id = none) :
    updateStatus d id st r = d := by
  unfold updateStatus
  rw [h]

theorem updateStatus_found_live_terminal (d : DisplayState) (id : String)
    (st : ToolStatus) (r : Option String) (tc : ToolCall)
    (hlive : d.liveEnabled = true) (hterm : st.isTerminal = true)
    (hfound : lookupActive d.active id = some tc) :
    updateStatus d id st r =
      { d with
        live := true
        active := removeActive d.active id
        output := d.output ++ [OutEvent.panel (appliedCall tc st r)]
        events := d.events ++ [DispEvent.statusSet id st] } := by
  unfold updateStatus
  rw [hfound]
  simp [hlive, hterm]

theorem updateStatus_found_live_nonterminal (d : DisplayState) (id : String)
    (st : ToolStatus) (r : Option String) (tc : ToolCall)
    (hlive : d.liveEnabled = true) (hterm : st.isTerminal = false)
    (hfound : lookupActive d.active id = some tc) :
    updateStatus d id st r =
      { d with
        live := true
        active := setActive d.active id (appliedCall tc st r)
        events := d.events ++ [DispEvent.statusSet id st] } := by
  unfold updateStatus
  rw [hfound]
  simp [hlive, hterm]

theorem regFold_basic (calls : List RegCall) :
    ∀ d : DisplayState,
      (calls.foldl regFoldStep d).output = d.output ∧
      (calls.foldl regFoldStep d).liveEnabled = d.liveEnabled ∧
      (calls.foldl regFoldStep d).live = d.live ∧
      (calls.foldl regFoldStep d).events =
        d.events ++ calls.map fun c => DispEvent.registered c.id := by
  induction calls with
  | nil => intro d; simp
  | cons c rest ih =>
    intro d
    rw [List.foldl_cons]
    obtain ⟨h1, h2, h3, h4⟩ := ih (regFoldStep d c)
    refine ⟨h1, h2, h3, ?_⟩
    rw [h4]
    simp [regFoldStep]

theorem regFold_lookup_ne (calls : List RegCall) (id : String)
    (h : ∀ c ∈ calls, c.id ≠ id) :
    ∀ d : DisplayState,
      lookupActive (calls.foldl regFoldStep d).active id = lookupActive d.active id := by
  induction calls with
  | nil => intro d; rfl
  | cons c rest ih =>
    intro d
    rw [List.foldl_cons]
    rw [ih (fun c' hc' => h c' (List.mem_cons.mpr (Or.inr hc')))]
    exact lookupActive_set_ne d.active c.id id _ (h c (by simp))

theorem regFold_WF (calls : List RegCall) :
    ∀ d : DisplayState, ActiveWF d.active → ActiveWF (calls.foldl regFoldStep d).active := by
  induction calls with
  | nil => intro d h; exact h
  | cons c rest ih =>
    intro d h
    rw [List.foldl_cons]
    exact ih _ (ActiveWF_set d.active c.id _ h rfl)

theorem registerCalls_live_props (d : DisplayState) (calls : List RegCall)
    (hlive : d.liveEnabled = true) :
    (registerCalls d calls).output = d.output ∧
    (registerCalls d calls).liveEnabled = true ∧
    (registerCalls d calls).events =
      d.events ++ calls.map (fun c => DispEvent.registered c.id) ∧
    (ActiveWF d.active → ActiveWF (registerCalls d calls).active) ∧
    (∀ id : String, (∀ c ∈ calls, c.id ≠ id) →
      lookupActive (registerCalls d calls).active id = lookupActive d.active id) := by
  obtain ⟨h1, h2, h3, h4⟩ := regFold_basic calls d
  unfold registerCalls
  rw [if_pos (by rw [h2]; exact hlive)]
  exact ⟨h1, by rw [h2]; exact hlive, h4, fun hwf => regFold_WF calls d hwf,
    fun id hid => regFold_lookup_ne calls id hid d⟩

theorem settledPanelCount_append (id : String) (o1 o2 : List OutEvent) :
    settledPanelCount id (o1 ++ o2) = settledPanelCount id o1 + settledPanelCount id o2 :=
  List.countP_append _ o1 o2

theorem settledPanelCount_single_other (id : String) (tc : ToolCall) (h : tc.id ≠ id) :
    settledPanelCount id [OutEvent.panel tc] = 0 := by
  unfold settledPanelCount
  simp [List.countP_cons, h]

/-- After an id is retired (absent from the active set), any sequence of
display operations that never re-registers it leaves its lookup empty and
its settled-panel count untouched (in live mode). -/
theorem retired_stable (id : String) (ops : List DispOp) :
    ∀ d : DisplayState,
      d.liveEnabled = true → ActiveWF d.active →
      lookupActive d.active id = none →
      (∀ op ∈ ops, opRegistersId id op = false) →
      getToolCall (applyOps d ops) id = none ∧
      settledPanelCount id (applyOps d ops).output = settledPanelCount id d.output := by
  induction ops with
  | nil => intro d _ _ hnone _; exact ⟨hnone, rfl⟩
  | cons op rest ih =>
    intro d hlive hwf hnone hops
    have hstep : (applyOp d op).liveEnabled = true ∧ ActiveWF (applyOp d op).active ∧
        lookupActive (applyOp d op).active id = none ∧
        settledPanelCount id (applyOp d op).output = settledPanelCount id d.output := by
      cases op with
      | register calls =>
        have hcalls : ∀ c ∈ calls, c.id ≠ id := by
          intro c hc hceq
          have h0 := hops (DispOp.register calls) (by simp)
          simp only [opRegistersId] at h0
          have h1 : (calls.any fun c => decide (c.id = id)) = true :=
            List.any_eq_true.mpr ⟨c, hc, by simp [hceq]⟩
          rw [h1] at h0
          exact Bool.noConfusion h0
        obtain ⟨h1, h2, _, h4, h5⟩ := registerCalls_live_props d calls hlive
        simp only [applyOp]
        exact ⟨h2, h4 hwf, by rw [h5 id hcalls]; exact hnone, by rw [h1]⟩
      | update id' st' r' =>
        simp only [applyOp]
        cases hfound : lookupActive d.active id' with
        | none =>
          rw [updateStatus_not_found d id' st' r' hfound]
          exact ⟨hlive, hwf, hnone, rfl⟩
        | some tc =>
          have hne : id' ≠ id := by
            intro h0
            rw [h0, hnone] at hfound
            exact Option.noConfusion hfound
          have htcid : tc.id ≠ id := by
            rw [lookup_id_eq d.active id' tc hwf hfound]
            exact hne
          cases hterm : st'.isTerminal with
          | true =>
            rw [updateStatus_found_live_terminal d id' st' r' tc hlive hterm hfound]
            refine ⟨hlive, ActiveWF_remove d.active id' hwf, ?_, ?_⟩
            · show lookupActive (removeActive d.active id') id = none
              rw [lookupActive_remove_ne d.active id' id hne]
              exact hnone
            · show settledPanelCount id
                (d.output ++ [OutEvent.panel (appliedCall tc st' r')]) =
                  settledPanelCount id d.output
              rw [settledPanelCount_append,
                settledPanelCount_single_other id (appliedCall tc st' r') htcid]
              omega
          | false =>
            rw [updateStatus_found_live_nonterminal d id' st' r' tc hlive hterm hfound]
            refine ⟨hlive, ActiveWF_set d.active id' (appliedCall tc st' r') hwf
              (lookup_id_eq d.active id' tc hwf hfound), ?_, rfl⟩
            show lookupActive (setActive d.active id' (appliedCall tc st' r')) id = none
            rw [lookupActive_set_ne d.active id' id _ hne]
            exact hnone
      | clearOp =>
        simp only [applyOp]
        refine ⟨hlive, ?_, rfl, rfl⟩
        intro p hp
        exact absurd hp (List.not_mem_nil p)
      | finalizeOp =>
        exact ⟨hlive, hwf, hnone, rfl⟩
    obtain ⟨hs1, hs2, hs3, hs4⟩ := hstep
    have hrest := ih (applyOp d op) hs1 hs2 hs3
      (fun op' hop' => hops op' (List.mem_cons.mpr (Or.inr hop')))
    refine ⟨hrest.1, ?_⟩
    have hcons : applyOps d (op :: rest) = applyOps (applyOp d op) rest := rfl
    rw [hcons, hrest.2, hs4]

/-! ### Claim C1: exactly-once settlement -/

/-- Claim C1 is false in the display-disabled mode: after registering
`"t1"` and settling it with `update_status("t1", DONE, "hi")`,
`get_tool_call("t1")` still finds the entry (the disabled mode never
retires it), and a duplicate terminal update for `"t1"` is not a no-op: it
prints a second settled panel for the same call. -/
theorem settle_once_disabled_cex :
    (getToolCall
        (updateStatus
          (registerCalls displayInitNoLive
            [⟨"t1", "run_shell_command", [("cmd", "echo hi")]⟩])
          "t1" ToolStatus.done (some "hi"))
        "t1" ≠ none) ∧
    settledPanelCount "t1"
        (updateStatus
          (updateStatus
            (registerCalls displayInitNoLive
              [⟨"t1", "run_shell_command", [("cmd", "echo hi")]⟩])
            "t1" ToolStatus.done (some "hi"))
          "t1" ToolStatus.done (some "hi")).output = 2 := by
  constructor
  · decide
  · decide

/-- Claim C1, amended to the live mode (the default, `AGENT_NO_LIVE`
unset): once `update_status(id, st, r)` with terminal `st` settles a
registered call, `get_tool_call(id)` returns "not found", the permanent
output stream gains exactly one settled panel for the id (exactly one in
total when none existed before), every later `update_status` for the id is
a silent no-op, and both facts persist under any further display
operations that do not re-register the id. In the display-disabled mode
the entry instead stays active and further updates re-print
(`settle_once_disabled_cex`). -/
theorem settle_once (d : DisplayState) (id : String) (st : ToolStatus) (r : Option String)
    (ops : List DispOp) (tc : ToolCall)
    (hlive : d.liveEnabled = true)
    (hterm : st.isTerminal = true)
    (hfound : lookupActive d.active id = some tc)
    (hwf : ActiveWF d.active)
    (hcount : settledPanelCount id d.output = 0)
    (hops : ∀ op ∈ ops, opRegistersId id op = false) :
    getToolCall (updateStatus d id st r) id = none ∧
    settledPanelCount id (updateStatus d id st r).output = 1 ∧
    (∀ (st' : ToolStatus) (r' : Option String),
        updateStatus (updateStatus d id st r) id st' r' = updateStatus d id st r) ∧
    getToolCall (applyOps (updateStatus d id st r) ops) id = none ∧
    settledPanelCount id (applyOps (updateStatus d id st r) ops).output = 1 := by
  have hupd := updateStatus_found_live_terminal d id st r tc hlive hterm hfound
  have htcid : tc.id = id := lookup_id_eq d.active id tc hwf hfound
  have hlookup_after : lookupActive (updateStatus d id st r).active id = none := by
    rw [hupd]
    exact lookupActive_remove_self d.active id
  have hcount_after : settledPanelCount id (updateStatus d id st r).output = 1 := by
    rw [hupd]
    show settledPanelCount id (d.output ++ [OutEvent.panel (appliedCall tc st r)]) = 1
    rw [settledPanelCount_append, hcount]
    unfold settledPanelCount
    simp [List.countP_cons, appliedCall, htcid, hterm]
  have hlive_after : (updateStatus d id st r).liveEnabled = true := by
    rw [hupd]
    exact hlive
  have hwf_after : ActiveWF (updateStatus d id st r).active := by
    rw [hupd]
    exact ActiveWF_remove d.active id hwf
  have hstable := retired_stable id ops (updateStatus d id st r)
    hlive_after hwf_after hlookup_after hops
  refine ⟨hlookup_after, hcount_after, ?_, hstable.1, by rw [hstable.2, hcount_after]⟩
  intro st' r'
  exact updateStatus_not_found _ id st' r' hlookup_after

/-- Witness for `settle_once`: a concrete live-mode display with one
registered, running call settled by `update_status("t1", DONE, ...)`,
followed by a `finalize` and an unrelated-register operation. -/
theorem settle_once_witness :
    getToolCall
        (updateStatus (registerCalls displayInit [⟨"t1", "run_shell_command", []⟩])
          "t1" ToolStatus.done (some "hi\n(exit code: 0)"))
        "t1" = none ∧
    settledPanelCount "t1"
        (updateStatus (registerCalls displayInit [⟨"t1", "run_shell_command", []⟩])
          "t1" ToolStatus.done (some "hi\n(exit code: 0)")).output = 1 ∧
    (∀ (st' : ToolStatus) (r' : Option String),
        updateStatus
            (updateStatus (registerCalls displayInit [⟨"t1", "run_shell_command", []⟩])
              "t1" ToolStatus.done (some "hi\n(exit code: 0)"))
            "t1" st' r' =
          updateStatus (registerCalls displayInit [⟨"t1", "run_shell_command", []⟩])
            "t1" ToolStatus.done (some "hi\n(exit code: 0)")) ∧
    getToolCall
        (applyOps
          (updateStatus (registerCalls displayInit [⟨"t1", "run_shell_command", []⟩])
            "t1" ToolStatus.done (some "hi\n(exit code: 0)"))
          [DispOp.finalizeOp, DispOp.register [⟨"t2", "read_file", []⟩]])
        "t1" = none ∧
    settledPanelCount "t1"
        (applyOps
          (updateStatus (registerCalls displayInit [⟨"t1", "run_shell_command", []⟩])
            "t1" ToolStatus.done (some "hi\n(exit code: 0)"))
          [DispOp.finalizeOp, DispOp.register [⟨"t2", "read_file", []⟩]]).output = 1 :=
  settle_once (registerCalls displayInit [⟨"t1", "run_shell_command", []⟩]) "t1"
    ToolStatus.done (some "hi\n(exit code: 0)")
    [DispOp.finalizeOp, DispOp.register [⟨"t2", "read_file", []⟩]]
    ⟨"t1", "run_shell_command", [], ToolStatus.pending, none⟩
    (by decide) (by decide) (by decide) (by unfold ActiveWF; decide) (by decide) (by decide)

/-! ### Claim C2: exit-code classification -/

/-- Claim C2: for a `ToolResult` whose string content carries the
`"(exit code: N)"` marker with `N` parsing as a decimal integer, `N ≠ 0`
classifies the call `ERROR` with the full raw content (marker included)
retained as its result, and `N = 0` classifies it `DONE`; content without
the marker always classifies `DONE`. -/
theorem exit_code_classification (name : Option String) (content : String) :
    (∀ n : Int, pyContains markerChars content.data = true →
        parsedExitCode content.data = some n →
        ((n ≠ 0 →
            classifyToolResult name (some content) = (ToolStatus.error, content)) ∧
         (n = 0 →
            classifyToolResult name (some content) =
              (ToolStatus.done, previewFor name (some content))))) ∧
    (pyContains markerChars content.data = false →
        classifyToolResult name (some content) =
          (ToolStatus.done, previewFor name (some content))) := by
  constructor
  · intro n hmark hparse
    constructor
    · intro hn
      simp [classifyToolResult, hmark, hparse, hn]
    · intro hn
      simp [classifyToolResult, hmark, hparse, hn]
  · intro hmark
    simp [classifyToolResult, hmark]

/-- Witness for `exit_code_classification`: the spec's three concrete
scenarios (`"bad\n(exit code: 7)"`, `"ok\n(exit code: 0)"`, no marker). -/
theorem exit_code_classification_witness :
    classifyToolResult none (some "bad\n(exit code: 7)") =
      (ToolStatus.error, "bad\n(exit code: 7)") ∧
    classifyToolResult none (some "ok\n(exit code: 0)") = (ToolStatus.done, "ok") ∧
    classifyToolResult none (some "File contents") = (ToolStatus.done, "File contents") := by
  refine ⟨?_, ?_, ?_⟩
  · exact ((exit_code_classification none "bad\n(exit code: 7)").1 7 (by decide)
      (by decide)).1 (by decide)
  · have h := ((exit_code_classification none "ok\n(exit code: 0)").1 0 (by decide)
      (by decide)).2 rfl
    rw [h]
    decide
  · have h := (exit_code_classification none "File contents").2 (by decide)
    rw [h]
    decide

/-! ### Claim C7: malformed exit-code suffixes degrade to DONE -/

/-- Claim C7 as stated is false in its retention clause: on
`"bad\n(exit code: abc)"` the call is classified `DONE`, but the result
retained for the call is the preview `"bad"` (marker and everything after
it stripped), not the raw text. -/
theorem unparseable_exit_code_cex :
    classifyToolResult none (some "bad\n(exit code: abc)") = (ToolStatus.done, "bad") ∧
    ("bad" : String) ≠ "bad\n(exit code: abc)" := by
  constructor
  · decide
  · decide

/-- Claim C7, amended: when the content contains the marker but the code
fails to parse as a decimal integer, the call is classified `DONE` (never
`ERROR`, and the classification is a total function — no exception
escapes), with the derived preview (marker stripped) retained as its
result. -/
theorem unparseable_exit_code_amended (name : Option String) (content : String)
    (hmark : pyContains markerChars content.data = true)
    (hparse : parsedExitCode content.data = none) :
    classifyToolResult name (some content) =
      (ToolStatus.done, previewFor name (some content)) := by
  simp only [classifyToolResult, hmark, hparse, if_true]

/-- Witness for `unparseable_exit_code_amended` at
`"x (exit code: 3x)"`. -/
theorem unparseable_exit_code_witness :
    classifyToolResult (some "run_shell_command") (some "x (exit code: 3x)") =
      (ToolStatus.done, previewFor (some "run_shell_command") (some "x (exit code: 3x)")) :=
  unparseable_exit_code_amended (some "run_shell_command") "x (exit code: 3x)"
    (by decide) (by decide)

/-! ### Claim C9: the concrete mixed-blank-lines preview scenario -/

/-- Claim C9 as stated is false: on
`"\n\nLine 1\nLine 2\n\n\nLine 3\n\n\n"` with `max_lines = 2`, the source
does not return `"Line 1\nLine 2"` — non-blank content (`"Line 3"`) remains
beyond the two kept lines, so the truncation marker is appended. -/
theorem preview_mixed_blanks_cex :
    extract_result_preview (some "\n\nLine 1\nLine 2\n\n\nLine 3\n\n\n") 2 120 ≠
      "Line 1\nLine 2" := by
  decide

/-- Claim C9, amended: the preview of
`"\n\nLine 1\nLine 2\n\n\nLine 3\n\n\n"` with `max_lines = 2` is
`"Line 1\nLine 2\n…"` — the two kept lines followed by the trailing
ellipsis marker line. -/
theorem preview_mixed_blanks_amended :
    extract_result_preview (some "\n\nLine 1\nLine 2\n\n\nLine 3\n\n\n") 2 120 =
      "Line 1\nLine 2\n…" := by
  decide

/-! ### Claim C8: autosave coalescing -/

/-- Requesting saves for every snapshot in `snaps` in order leaves only the
last snapshot in the single pending slot. -/
theorem foldl_requestSave (snaps : List (List String)) (h : snaps ≠ []) :
    ∀ s : AutosaverState,
      snaps.foldl requestSave s =
        { s with latest := some (snaps.getLast h), eventSet := true } := by
  induction snaps with
  | nil => exact absurd rfl h
  | cons m rest ih =>
    intro s
    cases rest with
    | nil => simp [requestSave, List.getLast]
    | cons m2 r2 =>
      rw [List.foldl_cons, ih (by simp) (requestSave s m)]
      simp [requestSave, List.getLast]

/-- Claim C8: `N ≥ 1` rapid `request_save` calls (no worker wake-up in
between) followed by `close()` make the worker perform exactly one
persisted write — the last snapshot — and then terminate; the earlier
snapshots are never written. -/
theorem autosave_coalesces (snaps : List (List String)) (h : snaps ≠ []) :
    (workerStep (closeAutosaver (snaps.foldl requestSave autosaverInit))).2 = true ∧
    (workerStep (closeAutosaver (snaps.foldl requestSave autosaverInit))).1.writes =
      [snaps.getLast h] ∧
    (workerStep (closeAutosaver (snaps.foldl requestSave autosaverInit))).1.latest = none := by
  rw [foldl_requestSave snaps h]
  simp [workerStep, closeAutosaver, autosaverInit]

/-- Witness for `autosave_coalesces`: three rapid requests then close give
exactly one write, of the third snapshot. -/
theorem autosave_coalesces_witness :
    (workerStep (closeAutosaver ([["m1"], ["m2"], ["m3"]].foldl requestSave autosaverInit))).2 =
      true ∧
    (workerStep (closeAutosaver ([["m1"], ["m2"], ["m3"]].foldl requestSave autosaverInit))).1.writes =
      [["m3"]] ∧
    (workerStep (closeAutosaver ([["m1"], ["m2"], ["m3"]].foldl requestSave autosaverInit))).1.latest =
      none :=
  autosave_coalesces [["m1"], ["m2"], ["m3"]] (by decide)

/-! ### Claim C3: cancellation yields an empty turn -/

/-- Loop form of the cancellation property: if the token was cancelled at
index `k`, no earlier check has fired yet (`i ≤ k`), and at least one chunk
remains to be pulled before index `k` is passed, the loop returns the empty
message list with the display finalized (live region stopped). -/
theorem runLoop_cancelled (k : Nat) (chunks : List Chunk) :
    ∀ (i : Nat) (acc : List Msg) (seen : List String) (d : DisplayState),
      i ≤ k → k < i + chunks.length →
      (runLoop (some k) chunks i acc seen d).1 = [] ∧
      (runLoop (some k) chunks i acc seen d).2.live = false := by
  induction chunks with
  | nil => intro i acc seen d hik hk; simp at hk; omega
  | cons c rest ih =>
    intro i acc seen d hik hk
    by_cases hcancel : k ≤ i
    · cases c <;> simp [runLoop, cancelSeenAt, hcancel, finalizeDisp]
    · have hnc : ¬ (cancelSeenAt (some k) i = true) := by
        simp [cancelSeenAt]; omega
      cases c with
      | model msgs =>
        rw [runLoop, if_neg hnc]
        exact ih (i + 1) _ _ _ (by omega) (by simp [List.length_cons] at hk; omega)
      | tools msgs =>
        rw [runLoop, if_neg hnc]
        exact ih (i + 1) _ _ _ (by omega) (by simp [List.length_cons] at hk; omega)

/-- Claim C3: if `cancel()` is observed before the agent's chunk stream is
exhausted (the token is set from the `k`-th between-chunk check with `k`
inside the stream), the turn runner stops, finalizes the display, and
returns the empty message list. -/
theorem cancelled_turn_is_empty (d0 : DisplayState) (chunks : List Chunk) (k : Nat)
    (hk : k < chunks.length) :
    (runAgent d0 chunks (some k)).1 = [] ∧
    (runAgent d0 chunks (some k)).2.live = false := by
  unfold runAgent
  exact runLoop_cancelled k chunks 0 [] [] (clearDisp d0) (Nat.zero_le k) (by simpa)

/-- Witness for `cancelled_turn_is_empty`: a token cancelled before the
first chunk of a two-chunk stream yields an empty turn. -/
theorem cancelled_turn_is_empty_witness :
    (runAgent displayInit [Chunk.model [], Chunk.tools []] (some 0)).1 = [] ∧
    (runAgent displayInit [Chunk.model [], Chunk.tools []] (some 0)).2.live = false :=
  cancelled_turn_is_empty displayInit [Chunk.model [], Chunk.tools []] 0 (by decide)

/-! ### Ghost-trace lemma library (for claim C5) -/

theorem statusHistory_append (id : String) (e1 e2 : List DispEvent) :
    statusHistory id (e1 ++ e2) = statusHistory id e1 ++ statusHistory id e2 :=
  List.filterMap_append e1 e2 _

theorem registerCount_append (id : String) (e1 e2 : List DispEvent) :
    registerCount id (e1 ++ e2) = registerCount id e1 + registerCount id e2 :=
  List.countP_append _ e1 e2

theorem statusHistory_statusSet (id i : String) (st : ToolStatus) :
    statusHistory id [DispEvent.statusSet i st] = if i = id then [st] else [] := by
  unfold statusHistory
  by_cases h : i = id <;> simp [h]

theorem statusHistory_registered (id i : String) :
    statusHistory id [DispEvent.registered i] = if i = id then [ToolStatus.pending] else [] := by
  unfold statusHistory
  by_cases h : i = id <;> simp [h]

theorem registerCount_statusSet (id i : String) (st : ToolStatus) :
    registerCount id [DispEvent.statusSet i st] = 0 := by
  unfold registerCount
  simp

theorem registerCount_registered (id i : String) :
    registerCount id [DispEvent.registered i] = if i = id then 1 else 0 := by
  unfold registerCount
  by_cases h : i = id <;> simp [h]

theorem statusHistory_registered_map (id : String) (calls : List RegCall) :
    statusHistory id (calls.map fun c => DispEvent.registered c.id) =
      List.replicate (calls.countP fun c => decide (c.id = id)) ToolStatus.pending := by
  induction calls with
  | nil => rfl
  | cons c rest ih =>
    rw [List.map_cons]
    have hcons : statusHistory id (DispEvent.registered c.id ::
        rest.map fun c => DispEvent.registered c.id) =
        statusHistory id [DispEvent.registered c.id] ++
          statusHistory id (rest.map fun c => DispEvent.registered c.id) :=
      statusHistory_append id [DispEvent.registered c.id] _
    rw [hcons, statusHistory_registered, ih, List.countP_cons]
    by_cases h : c.id = id
    · simp [h, List.replicate_succ]
    · simp [h]

theorem registerCount_registered_map (id : String) (calls : List RegCall) :
    registerCount id (calls.map fun c => DispEvent.registered c.id) =
      calls.countP fun c => decide (c.id = id) := by
  induction calls with
  | nil => rfl
  | cons c rest ih =>
    rw [List.map_cons]
    have hcons : registerCount id (DispEvent.registered c.id ::
        rest.map fun c => DispEvent.registered c.id) =
        registerCount id [DispEvent.registered c.id] +
          registerCount id (rest.map fun c => DispEvent.registered c.id) :=
      registerCount_append id [DispEvent.registered c.id] _
    rw [hcons, registerCount_registered, ih, List.countP_cons]
    by_cases h : c.id = id
    · simp [h]
      omega
    · simp [h]

theorem statusHistory_statusSet_map (id : String) (calls : List RegCall) (st : ToolStatus) :
    statusHistory id (calls.map fun c => DispEvent.statusSet c.id st) =
      List.replicate (calls.countP fun c => decide (c.id = id)) st := by
  induction calls with
  | nil => rfl
  | cons c rest ih =>
    rw [List.map_cons]
    have hcons : statusHistory id (DispEvent.statusSet c.id st ::
        rest.map fun c => DispEvent.statusSet c.id st) =
        statusHistory id [DispEvent.statusSet c.id st] ++
          statusHistory id (rest.map fun c => DispEvent.statusSet c.id st) :=
      statusHistory_append id [DispEvent.statusSet c.id st] _
    rw [hcons, statusHistory_statusSet, ih, List.countP_cons]
    by_cases h : c.id = id
    · simp [h, List.replicate_succ]
    · simp [h]

theorem registerCount_statusSet_map (id : String) (calls : List RegCall) (st : ToolStatus) :
    registerCount id (calls.map fun c => DispEvent.statusSet c.id st) = 0 := by
  induction calls with
  | nil => rfl
  | cons c rest ih =>
    rw [List.map_cons]
    have hcons : registerCount id (DispEvent.statusSet c.id st ::
        rest.map fun c => DispEvent.statusSet c.id st) =
        registerCount id [DispEvent.statusSet c.id st] +
          registerCount id (rest.map fun c => DispEvent.statusSet c.id st) :=
      registerCount_append id [DispEvent.statusSet c.id st] _
    rw [hcons, registerCount_statusSet, ih]

/-- Every status a `ToolMessage` classification produces is terminal. -/
theorem classify_terminal (name : Option String) (content : Option String) :
    (classifyToolResult name content).1 = ToolStatus.done ∨
    (classifyToolResult name content).1 = ToolStatus.error := by
  cases content with
  | none => exact Or.inl rfl
  | some s =>
    by_cases hm : pyContains markerChars s.data = true
    · cases hp : parsedExitCode s.data with
      | none => simp [classifyToolResult, hm, hp]
      | some n =>
        by_cases hn : n = 0
        · simp [classifyToolResult, hm, hp, hn]
        · simp [classifyToolResult, hm, hp, hn]
    · have hm' : pyContains markerChars s.data = false := by
        cases h : pyContains markerChars s.data
        · rfl
        · exact absurd h hm
      simp [classifyToolResult, hm']

theorem terminal_isTerminal (st : ToolStatus)
    (h : st = ToolStatus.done ∨ st = ToolStatus.error) : st.isTerminal = true := by
  rcases h with rfl | rfl <;> rfl

/-- `TurnInv` only inspects the ghost trace and the active set. -/
theorem TurnInv_congr (id : String) (seen : List String) (d d' : DisplayState)
    (hh : statusHistory id d'.events = statusHistory id d.events)
    (hr : registerCount id d'.events = registerCount id d.events)
    (hl : lookupActive d'.active id = lookupActive d.active id)
    (hinv : TurnInv id seen d) : TurnInv id seen d' := by
  unfold TurnInv at hinv ⊢
  rw [hh, hr, hl]
  exact hinv

theorem regFold_lookup_mem (calls : List RegCall) :
    ∀ d : DisplayState, (calls.map fun c => c.id).Nodup →
      ∀ c ∈ calls, lookupActive (calls.foldl regFoldStep d).active c.id =
        some ⟨c.id, c.name, c.args, ToolStatus.pending, none⟩ := by
  induction calls with
  | nil => intro d _ c hc; simp at hc
  | cons c0 rest ih =>
    intro d hnd c hc
    rw [List.foldl_cons]
    rw [List.map_cons] at hnd
    have hnd' := List.nodup_cons.mp hnd
    rcases List.mem_cons.mp hc with rfl | hcr
    · have hnotin : ∀ c' ∈ rest, c'.id ≠ c.id := by
        intro c' hc' heq
        exact hnd'.1 (List.mem_map.mpr ⟨c', hc', heq⟩)
      rw [regFold_lookup_ne rest c.id hnotin (regFoldStep d c)]
      exact lookupActive_set_self d.active c.id _
    · exact ih (regFoldStep d c0) hnd'.2 c hcr

theorem registerCalls_lookup_mem (d : DisplayState) (calls : List RegCall)
    (hlive : d.liveEnabled = true) (hnd : (calls.map fun c => c.id).Nodup)
    (c : RegCall) (hc : c ∈ calls) :
    lookupActive (registerCalls d calls).active c.id =
      some ⟨c.id, c.name, c.args, ToolStatus.pending, none⟩ := by
  unfold registerCalls
  rw [if_pos (by rw [(regFold_basic calls d).2.1]; exact hlive)]
  exact regFold_lookup_mem calls d hnd c hc

/-- The `RUNNING` sweep: each freshly registered call gets one accepted
`RUNNING` update; ids outside the batch are untouched. -/
theorem markRunning_props (new : List RegCall) (id : String) :
    ∀ d : DisplayState, d.liveEnabled = true →
      (new.map fun tc => tc.id).Nodup →
      (∀ c ∈ new, lookupActive d.active c.id ≠ none) →
      (markRunning d new).liveEnabled = true ∧
      (markRunning d new).events =
        d.events ++ new.map (fun tc => DispEvent.statusSet tc.id ToolStatus.running) ∧
      ((id ∈ new.map fun tc => tc.id) → lookupActive (markRunning d new).active id ≠ none) ∧
      ((¬ id ∈ new.map fun tc => tc.id) →
        lookupActive (markRunning d new).active id = lookupActive d.active id) := by
  induction new with
  | nil =>
    intro d hlive _ _
    refine ⟨hlive, by simp [markRunning], ?_, fun _ => rfl⟩
    intro h
    simp at h
  | cons c rest ih =>
    intro d hlive hnd hact
    rw [List.map_cons] at hnd
    have hnd' := List.nodup_cons.mp hnd
    cases hfound : lookupActive d.active c.id with
    | none => exact absurd hfound (hact c (by simp))
    | some tc =>
      have hstep := updateStatus_found_live_nonterminal d c.id ToolStatus.running none tc
        hlive rfl hfound
      have hmr : markRunning d (c :: rest) =
          markRunning (updateStatus d c.id ToolStatus.running none) rest := rfl
      rw [hmr, hstep]
      have hact' : ∀ c' ∈ rest, lookupActive
          (setActive d.active c.id (appliedCall tc ToolStatus.running none)) c'.id ≠ none := by
        intro c' hc'
        have hne : c.id ≠ c'.id := by
          intro heq
          exact hnd'.1 (List.mem_map.mpr ⟨c', hc', heq.symm⟩)
        rw [lookupActive_set_ne d.active c.id c'.id _ hne]
        exact hact c' (List.mem_cons.mpr (Or.inr hc'))
      obtain ⟨g1, g2, g3, g4⟩ := ih
        { d with
          live := true
          active := setActive d.active c.id (appliedCall tc ToolStatus.running none)
          events := d.events ++ [DispEvent.statusSet c.id ToolStatus.running] }
        hlive hnd'.2 hact'
      refine ⟨g1, ?_, ?_, ?_⟩
      · rw [g2]
        simp
      · intro hmem
        rw [List.map_cons] at hmem
        rcases List.mem_cons.mp hmem with heq | hmem2
        · by_cases hrest : id ∈ rest.map fun tc => tc.id
          · exact g3 hrest
          · rw [g4 hrest]
            rw [← heq] at hnd' ⊢
            rw [lookupActive_set_self]
            exact fun h => Option.noConfusion h
        · exact g3 hmem2
      · intro hmem
        rw [List.map_cons] at hmem
        have hmem' : ¬ id ∈ rest.map fun tc => tc.id := by
          intro h
          exact hmem (List.mem_cons.mpr (Or.inr h))
        have hne : c.id ≠ id := by
          intro h
          exact hmem (List.mem_cons.mpr (Or.inl h.symm))
        rw [g4 hmem']
        exact lookupActive_set_ne d.active c.id id _ hne

theorem countP_eq_count_map (new : List RegCall) (id : String) :
    (new.countP fun c => decide (c.id = id)) = (new.map fun tc => tc.id).count id := by
  induction new with
  | nil => rfl
  | cons c rest ih =>
    rw [List.countP_cons, List.map_cons]
    by_cases h : c.id = id
    · simp [List.count_cons, h, ih]
    · simp [List.count_cons, h, ih]

/-- Settling one `ToolMessage` preserves the per-id registry invariant. -/
theorem inv_processToolMessage (id tid : String) (name : Option String)
    (content : Option String) (seen : List String) (d : DisplayState)
    (hlive : d.liveEnabled = true) (hinv : TurnInv id seen d) :
    (processToolMessage name content tid d).liveEnabled = true ∧
    TurnInv id seen (processToolMessage name content tid d) := by
  unfold processToolMessage
  have hterm := classify_terminal name content
  have hterm' : (classifyToolResult name content).1.isTerminal = true :=
    terminal_isTerminal _ hterm
  cases hfound : lookupActive d.active tid with
  | none =>
    rw [updateStatus_not_found _ _ _ _ hfound]
    exact ⟨hlive, hinv⟩
  | some tc =>
    rw [updateStatus_found_live_terminal d tid _ _ tc hlive hterm' hfound]
    refine ⟨hlive, ?_⟩
    by_cases hid : tid = id
    · rw [hid] at hfound ⊢
      rcases hinv with ⟨hns, hh, hr, hl⟩ | ⟨hs, hrc, hcase⟩
      · rw [hfound] at hl
        exact absurd hl (fun h => Option.noConfusion h)
      · rcases hcase with ⟨hh, hl⟩ | ⟨hh, hl⟩
        · right
          refine ⟨hs, ?_, Or.inr ⟨?_, ?_⟩⟩
          · show registerCount id
              (d.events ++ [DispEvent.statusSet id (classifyToolResult name content).1]) = 1
            rw [registerCount_append, registerCount_statusSet]
            omega
          · show statusHistory id
                (d.events ++ [DispEvent.statusSet id (classifyToolResult name content).1]) =
                  [ToolStatus.pending, ToolStatus.running, ToolStatus.done] ∨
              statusHistory id
                (d.events ++ [DispEvent.statusSet id (classifyToolResult name content).1]) =
                  [ToolStatus.pending, ToolStatus.running, ToolStatus.error]
            rw [statusHistory_append, hh, statusHistory_statusSet, if_pos rfl]
            rcases hterm with ht | ht
            · left
              rw [ht]
              rfl
            · right
              rw [ht]
              rfl
          · show lookupActive (removeActive d.active id) id = none
            exact lookupActive_remove_self d.active id
        · rw [hl] at hfound
          exact Option.noConfusion hfound
    · refine TurnInv_congr id seen d _ ?_ ?_ ?_ hinv
      · show statusHistory id
            (d.events ++ [DispEvent.statusSet tid (classifyToolResult name content).1]) =
          statusHistory id d.events
        rw [statusHistory_append, statusHistory_statusSet, if_neg hid, List.append_nil]
      · show registerCount id
            (d.events ++ [DispEvent.statusSet tid (classifyToolResult name content).1]) =
          registerCount id d.events
        rw [registerCount_append, registerCount_statusSet]
        omega
      · show lookupActive (removeActive d.active tid) id = lookupActive d.active id
        exact lookupActive_remove_ne d.active tid id hid

/-- One `process_agent_chunk` message step preserves the invariant, keeps
the seen-set growing, and puts every id the message requests into it. -/
theorem inv_stepAgentMsg (id : String) (m : Msg) (seen : List String) (d : DisplayState)
    (hlive : d.liveEnabled = true)
    (hnd : ∀ content tcs, m = Msg.ai content tcs → (tcs.map fun tc => tc.id).Nodup)
    (hinv : TurnInv id seen d) :
    (stepAgentMsg (seen, d) m).2.liveEnabled = true ∧
    TurnInv id (stepAgentMsg (seen, d) m).1 (stepAgentMsg (seen, d) m).2 ∧
    (∀ x ∈ seen, x ∈ (stepAgentMsg (seen, d) m).1) ∧
    (∀ content tcs, m = Msg.ai content tcs → ∀ tc ∈ tcs,
      tc.id ∈ (stepAgentMsg (seen, d) m).1) := by
  cases m with
  | otherMsg =>
    exact ⟨hlive, hinv, fun x hx => hx, fun content tcs h => Msg.noConfusion h⟩
  | tool name content tid =>
    obtain ⟨h1, h2⟩ := inv_processToolMessage id tid name content seen d hlive hinv
    exact ⟨h1, h2, fun x hx => hx, fun content tcs h => Msg.noConfusion h⟩
  | ai content tcs =>
    have hndtcs : (tcs.map fun tc => tc.id).Nodup := hnd content tcs rfl
    by_cases h0 : tcs.isEmpty = true
    · have hstep : stepAgentMsg (seen, d) (Msg.ai content tcs) = (seen, d) := by
        simp [stepAgentMsg, h0]
      rw [hstep]
      refine ⟨hlive, hinv, fun x hx => hx, ?_⟩
      intro content' tcs' heq tc htc
      injection heq with hc ht
      rw [← ht] at htc
      rw [List.isEmpty_iff] at h0
      rw [h0] at htc
      simp at htc
    · by_cases h1 : (newCallsOf tcs seen).isEmpty = true
      · have hstep : stepAgentMsg (seen, d) (Msg.ai content tcs) = (seen, d) := by
          simp [stepAgentMsg, h0, h1]
        rw [hstep]
        refine ⟨hlive, hinv, fun x hx => hx, ?_⟩
        intro content' tcs' heq tc htc
        injection heq with hc ht
        rw [← ht] at htc
        rw [List.isEmpty_iff] at h1
        have hall : ∀ a ∈ tcs, ¬ (!decide (a.id ∈ seen)) = true :=
          List.filter_eq_nil_iff.mp h1
        have h2 := hall tc htc
        simp at h2
        exact h2
      · have hstep : stepAgentMsg (seen, d) (Msg.ai content tcs) =
            (seen ++ (newCallsOf tcs seen).map fun tc => tc.id,
              markRunning (registerCalls d (newCallsOf tcs seen)) (newCallsOf tcs seen)) := by
          simp [stepAgentMsg, h0, h1]
        rw [hstep]
        have hndnew : ((newCallsOf tcs seen).map fun tc => tc.id).Nodup := by
          have hsub : List.Sublist (newCallsOf tcs seen) tcs := List.filter_sublist tcs
          exact hndtcs.sublist (hsub.map _)
        obtain ⟨hro, hrl, hre, hrwf, hrne⟩ :=
          registerCalls_live_props d (newCallsOf tcs seen) hlive
        have hactlookup : ∀ c ∈ newCallsOf tcs seen,
            lookupActive (registerCalls d (newCallsOf tcs seen)).active c.id ≠ none := by
          intro c hc
          rw [registerCalls_lookup_mem d _ hlive hndnew c hc]
          exact fun h => Option.noConfusion h
        obtain ⟨hm1, hm2, hm3, hm4⟩ := markRunning_props (newCallsOf tcs seen) id
          (registerCalls d (newCallsOf tcs seen)) hrl hndnew hactlookup
        have hev : (markRunning (registerCalls d (newCallsOf tcs seen))
            (newCallsOf tcs seen)).events =
            d.events ++ ((newCallsOf tcs seen).map fun c => DispEvent.registered c.id) ++
              ((newCallsOf tcs seen).map fun tc =>
                DispEvent.statusSet tc.id ToolStatus.running) := by
          rw [hm2, hre]
        refine ⟨hm1, ?_, fun x hx => List.mem_append.mpr (Or.inl hx), ?_⟩
        · by_cases hidnew : id ∈ (newCallsOf tcs seen).map fun tc => tc.id
          · have hidns : ¬ id ∈ seen := by
              rcases List.mem_map.mp hidnew with ⟨tc, htc, hteq⟩
              have htc' : tc ∈ tcs.filter (fun tc => !decide (tc.id ∈ seen)) := htc
              intro hidseen
              have hpred := (List.mem_filter.mp htc').2
              rw [hteq] at hpred
              simp [hidseen] at hpred
            have hcount1 : ((newCallsOf tcs seen).countP fun c => decide (c.id = id)) = 1 := by
              rw [countP_eq_count_map]
              exact List.count_eq_one_of_mem hndnew hidnew
            rcases hinv with ⟨hns, hh, hr, hl⟩ | ⟨hs, _, _⟩
            · right
              refine ⟨List.mem_append.mpr (Or.inr hidnew), ?_, Or.inl ⟨?_, ?_⟩⟩
              · show registerCount id (markRunning (registerCalls d (newCallsOf tcs seen))
                  (newCallsOf tcs seen)).events = 1
                rw [hev, registerCount_append, registerCount_append,
                  registerCount_registered_map, registerCount_statusSet_map, hr, hcount1]
              · show statusHistory id (markRunning (registerCalls d (newCallsOf tcs seen))
                  (newCallsOf tcs seen)).events = [ToolStatus.pending, ToolStatus.running]
                rw [hev, statusHistory_append, statusHistory_append, hh,
                  statusHistory_registered_map, statusHistory_statusSet_map, hcount1]
                simp
              · exact hm3 hidnew
            · exact absurd hs hidns
          · have hne_calls : ∀ c ∈ newCallsOf tcs seen, c.id ≠ id := by
              intro c hc heq
              exact hidnew (List.mem_map.mpr ⟨c, hc, heq⟩)
            have hcount0 : ((newCallsOf tcs seen).countP fun c => decide (c.id = id)) = 0 := by
              rw [List.countP_eq_zero]
              intro c hc
              simp [hne_calls c hc]
            have hinv' : TurnInv id seen (markRunning (registerCalls d (newCallsOf tcs seen))
                (newCallsOf tcs seen)) := by
              refine TurnInv_congr id seen d _ ?_ ?_ ?_ hinv
              · rw [hev, statusHistory_append, statusHistory_append,
                  statusHistory_registered_map, statusHistory_statusSet_map, hcount0]
                simp
              · rw [hev, registerCount_append, registerCount_append,
                  registerCount_registered_map, registerCount_statusSet_map, hcount0]
                omega
              · rw [hm4 hidnew]
                exact hrne id hne_calls
            unfold TurnInv at hinv' ⊢
            rcases hinv' with ⟨ha, hb, hc2, hd2⟩ | ⟨ha, hb, hc2⟩
            · left
              refine ⟨?_, hb, hc2, hd2⟩
              intro hmem
              rcases List.mem_append.mp hmem with h | h
              · exact ha h
              · exact hidnew h
            · right
              exact ⟨List.mem_append.mpr (Or.inl ha), hb, hc2⟩
        · intro content' tcs' heq tc htc
          injection heq with hc ht
          rw [← ht] at htc
          by_cases hseen : tc.id ∈ seen
          · exact List.mem_append.mpr (Or.inl hseen)
          · have htcnew : tc ∈ newCallsOf tcs seen := by
              show tc ∈ tcs.filter fun tc => !decide (tc.id ∈ seen)
              rw [List.mem_filter]
              exact ⟨htc, by simp [hseen]⟩
            exact List.mem_append.mpr (Or.inr (List.mem_map.mpr ⟨tc, htcnew, rfl⟩))

/-- `process_agent_chunk` preserves the invariant for every message list
whose `AIMessage`s carry duplicate-free request ids. -/
theorem inv_processAgentChunk (id : String) (msgs : List Msg) :
    ∀ (seen : List String) (d : DisplayState),
      d.liveEnabled = true →
      (∀ m ∈ msgs, ∀ content tcs, m = Msg.ai content tcs →
        (tcs.map fun tc => tc.id).Nodup) →
      TurnInv id seen d →
      (processAgentChunk msgs seen d).2.liveEnabled = true ∧
      TurnInv id (processAgentChunk msgs seen d).1 (processAgentChunk msgs seen d).2 ∧
      (∀ x ∈ seen, x ∈ (processAgentChunk msgs seen d).1) ∧
      (∀ m ∈ msgs, ∀ content tcs, m = Msg.ai content tcs → ∀ tc ∈ tcs,
        tc.id ∈ (processAgentChunk msgs seen d).1) := by
  induction msgs with
  | nil =>
    intro seen d hl _ hinv
    refine ⟨hl, hinv, fun x hx => hx, ?_⟩
    intro m hm
    simp at hm
  | cons m rest ih =>
    intro seen d hl hnd hinv
    obtain ⟨h1, h2, h3, h4⟩ :=
      inv_stepAgentMsg id m seen d hl (fun c t he => hnd m (by simp) c t he) hinv
    have hfold : processAgentChunk (m :: rest) seen d =
        processAgentChunk rest (stepAgentMsg (seen, d) m).1 (stepAgentMsg (seen, d) m).2 :=
      rfl
    rw [hfold]
    obtain ⟨g1, g2, g3, g4⟩ := ih (stepAgentMsg (seen, d) m).1 (stepAgentMsg (seen, d) m).2
      h1 (fun m' hm' => hnd m' (List.mem_cons.mpr (Or.inr hm'))) h2
    refine ⟨g1, g2, fun x hx => g3 x (h3 x hx), ?_⟩
    intro m' hm' content tcs heq tc htc
    rcases List.mem_cons.mp hm' with rfl | hm2
    · exact g3 _ (h4 content tcs heq tc htc)
    · exact g4 m' hm2 content tcs heq tc htc

/-- `process_tools_chunk` preserves the invariant. -/
theorem inv_processToolsChunk (id : String) (msgs : List Msg) :
    ∀ (seen : List String) (d : DisplayState),
      d.liveEnabled = true → TurnInv id seen d →
      (processToolsChunk msgs d).liveEnabled = true ∧
      TurnInv id seen (processToolsChunk msgs d) := by
  induction msgs with
  | nil => intro seen d hl hinv; exact ⟨hl, hinv⟩
  | cons m rest ih =>
    intro seen d hl hinv
    cases m with
    | ai content tcs => exact ih seen d hl hinv
    | otherMsg => exact ih seen d hl hinv
    | tool name content tid =>
      obtain ⟨h1, h2⟩ := inv_processToolMessage id tid name content seen d hl hinv
      exact ih seen _ h1 h2

/-- The Responses-API normalization cannot introduce duplicate request ids:
it only drops the trailing message or replaces it with a call-free one. -/
theorem rewrite_preserves_nodups (msgs : List Msg)
    (h : ∀ m ∈ msgs, ∀ content tcs, m = Msg.ai content tcs →
      (tcs.map fun tc => tc.id).Nodup) :
    ∀ m ∈ rewriteModelMessages msgs, ∀ content tcs, m = Msg.ai content tcs →
      (tcs.map fun tc => tc.id).Nodup := by
  intro m hm
  unfold rewriteModelMessages at hm
  split at hm
  · rename_i bs tcs0 heq
    dsimp only at hm
    split at hm
    · rcases List.mem_append.mp hm with h1 | h2
      · exact h m (List.dropLast_sublist msgs |>.subset h1)
      · intro content tcs heq2
        have hm2 : m = Msg.ai (AIContent.str
            (String.intercalate "\n" (bs.filterMap fun b =>
              match b with
              | Block.textB t => if t ≠ "" then some t else none
              | Block.otherB => none))) [] := by simpa using h2
        rw [hm2] at heq2
        injection heq2 with hc ht
        rw [← ht]
        simp
    · exact h m hm
  · exact h m hm

/-- Loop form of the lifecycle invariant: the final display of any run
satisfies `TurnInv` for some seen-set extending the one it started with,
and (without cancellation or rewriting) containing every requested id. -/
theorem inv_runLoop (id : String) (cancelAt : Option Nat) (chunks : List Chunk) :
    ∀ (i : Nat) (acc : List Msg) (seen : List String) (d : DisplayState),
      d.liveEnabled = true →
      (∀ c ∈ chunks, ∀ m ∈ chunkMsgs c, ∀ content tcs, m = Msg.ai content tcs →
        (tcs.map fun tc => tc.id).Nodup) →
      TurnInv id seen d →
      ∃ seen' : List String,
        TurnInv id seen' (runLoop cancelAt chunks i acc seen d).2 ∧
        (∀ x ∈ seen, x ∈ seen') ∧
        (cancelAt = none → noRewrite chunks → requestedIn chunks id = true →
          id ∈ seen') := by
  induction chunks with
  | nil =>
    intro i acc seen d hl _ hinv
    refine ⟨seen, ?_, fun x hx => hx, ?_⟩
    · exact TurnInv_congr id seen d _ rfl rfl rfl hinv
    · intro _ _ hreq
      simp [requestedIn] at hreq
  | cons c rest ih =>
    intro i acc seen d hl hnd hinv
    by_cases hcancel : cancelSeenAt cancelAt i = true
    · have hloop : runLoop cancelAt (c :: rest) i acc seen d = ([], finalizeDisp d) := by
        cases c <;> (rw [runLoop, if_pos hcancel])
      rw [hloop]
      refine ⟨seen, TurnInv_congr id seen d _ rfl rfl rfl hinv, fun x hx => hx, ?_⟩
      intro hnone
      rw [hnone] at hcancel
      simp [cancelSeenAt] at hcancel
    · cases c with
      | model msgs =>
        have hloop : runLoop cancelAt (Chunk.model msgs :: rest) i acc seen d =
            runLoop cancelAt rest (i + 1)
              (acc ++ rewriteModelMessages msgs)
              (processAgentChunk (rewriteModelMessages msgs) seen d).1
              (processAgentChunk (rewriteModelMessages msgs) seen d).2 := by
          rw [runLoop, if_neg hcancel]
        rw [hloop]
        have hndmsgs : ∀ m ∈ rewriteModelMessages msgs, ∀ content tcs,
            m = Msg.ai content tcs → (tcs.map fun tc => tc.id).Nodup :=
          rewrite_preserves_nodups msgs
            (fun m hm => hnd (Chunk.model msgs) (by simp) m (by simpa [chunkMsgs] using hm))
        obtain ⟨p1, p2, p3, p4⟩ :=
          inv_processAgentChunk id (rewriteModelMessages msgs) seen d hl hndmsgs hinv
        obtain ⟨seen', q1, q2, q3⟩ := ih (i + 1) (acc ++ rewriteModelMessages msgs)
          (processAgentChunk (rewriteModelMessages msgs) seen d).1
          (processAgentChunk (rewriteModelMessages msgs) seen d).2
          p1 (fun c' hc' => hnd c' (List.mem_cons.mpr (Or.inr hc'))) p2
        refine ⟨seen', q1, fun x hx => q2 x (p3 x hx), ?_⟩
        intro hnone hnr hreq
        simp only [requestedIn, List.any_cons] at hreq
        rw [Bool.or_eq_true] at hreq
        rcases hreq with hreq1 | hreq2
        · -- requested inside this model chunk
          rw [List.any_eq_true] at hreq1
          obtain ⟨m, hm, hmmatch⟩ := hreq1
          have hrw : rewriteModelMessages msgs = msgs := hnr msgs (by simp)
          cases m with
          | ai content tcs =>
            simp only at hmmatch
            rw [List.any_eq_true] at hmmatch
            obtain ⟨tc, htc, hteq⟩ := hmmatch
            have hteq' : tc.id = id := by simpa using hteq
            have hmem : tc.id ∈ (processAgentChunk (rewriteModelMessages msgs) seen d).1 :=
              p4 (Msg.ai content tcs) (by rw [hrw]; exact hm) content tcs rfl tc htc
            rw [hteq'] at hmem
            exact q2 id hmem
          | tool name content tid => simp at hmmatch
          | otherMsg => simp at hmmatch
        · exact q3 hnone (fun ms hms => hnr ms (List.mem_cons.mpr (Or.inr hms))) hreq2
      | tools msgs =>
        have hloop : runLoop cancelAt (Chunk.tools msgs :: rest) i acc seen d =
            runLoop cancelAt rest (i + 1) (acc ++ msgs) seen (processToolsChunk msgs d) := by
          rw [runLoop, if_neg hcancel]
        rw [hloop]
        obtain ⟨p1, p2⟩ := inv_processToolsChunk id msgs seen d hl hinv
        obtain ⟨seen', q1, q2, q3⟩ := ih (i + 1) (acc ++ msgs) seen (processToolsChunk msgs d)
          p1 (fun c' hc' => hnd c' (List.mem_cons.mpr (Or.inr hc'))) p2
        refine ⟨seen', q1, q2, ?_⟩
        intro hnone hnr hreq
        simp only [requestedIn, List.any_cons] at hreq
        rw [Bool.or_eq_true] at hreq
        rcases hreq with hreq1 | hreq2
        · simp at hreq1
        · exact q3 hnone (fun ms hms => hnr ms (List.mem_cons.mpr (Or.inr hms))) hreq2

/-! ### Claim C5: per-id lifecycle monotonicity -/

/-- Claim C5: during a turn (live mode, request ids unique within each
`AIMessage` per the data model), every tool-call id's accepted status
sequence is a subsequence of `PENDING → RUNNING → {DONE | ERROR}` with at
most one terminal status and no accepted update after it; each id is
registered at most once (an already-seen id is never registered again), a
registered id enters `PENDING` and is immediately transitioned to
`RUNNING`, and — without cancellation or the content-block rewrite — each
requested id is registered exactly once. -/
theorem tool_call_lifecycle (d0 : DisplayState) (chunks : List Chunk)
    (cancelAt : Option Nat) (id : String)
    (hlive : d0.liveEnabled = true) (hnd : nodupRequests chunks) :
    LifecycleSpec d0 chunks cancelAt id := by
  have hinv0 : TurnInv id [] (clearDisp d0) := by
    left
    exact ⟨by simp, rfl, rfl, rfl⟩
  obtain ⟨seen', q1, _, q3⟩ :=
    inv_runLoop id cancelAt chunks 0 [] [] (clearDisp d0) hlive hnd hinv0
  unfold LifecycleSpec
  unfold runAgent
  rcases q1 with ⟨hns, hh, hr, _⟩ | ⟨hs, hrc, hcase⟩
  · refine ⟨⟨ToolStatus.done, Or.inl rfl, ?_⟩, ?_, ?_, ?_⟩
    · rw [hh]
      exact List.nil_sublist _
    · rw [hr]
      omega
    · rw [hr]
      intro h
      exact absurd h (by decide)
    · intro hnone hnr hreq
      exact absurd (q3 hnone hnr hreq) hns
  · rcases hcase with ⟨hh, _⟩ | ⟨hh2, _⟩
    · refine ⟨⟨ToolStatus.done, Or.inl rfl, ?_⟩, ?_, ?_, ?_⟩
      · rw [hh]
        exact ((List.nil_sublist [ToolStatus.done]).cons₂ ToolStatus.running).cons₂
          ToolStatus.pending
      · rw [hrc]
      · intro _
        exact ⟨[], hh⟩
      · intro _ _ _
        exact hrc
    · rcases hh2 with hd | he
      · refine ⟨⟨ToolStatus.done, Or.inl rfl, ?_⟩, ?_, ?_, ?_⟩
        · rw [hd]
        · rw [hrc]
        · intro _
          exact ⟨[ToolStatus.done], hd⟩
        · intro _ _ _
          exact hrc
      · refine ⟨⟨ToolStatus.error, Or.inr rfl, ?_⟩, ?_, ?_, ?_⟩
        · rw [he]
        · rw [hrc]
        · intro _
          exact ⟨[ToolStatus.error], he⟩
        · intro _ _ _
          exact hrc

/-- Witness for `tool_call_lifecycle`: the two-chunk stream requesting and
settling `"c1"`. -/
theorem tool_call_lifecycle_witness :
    LifecycleSpec displayInit
      [Chunk.model [Msg.ai (AIContent.str "")
          [⟨"c1", "read_file", [("path", "test.txt")]⟩]],
        Chunk.tools [Msg.tool none (some "File contents") "c1"]] none "c1" :=
  tool_call_lifecycle displayInit
    [Chunk.model [Msg.ai (AIContent.str "")
        [⟨"c1", "read_file", [("path", "test.txt")]⟩]],
      Chunk.tools [Msg.tool none (some "File contents") "c1"]] none "c1" (by decide)
    (by
      intro c hc m hm content tcs heq
      simp only [List.mem_cons, List.not_mem_nil, or_false] at hc
      rcases hc with rfl | rfl
      · simp only [chunkMsgs, List.mem_cons, List.not_mem_nil, or_false] at hm
        rw [hm] at heq
        injection heq with h1 h2
        rw [← h2]
        decide
      · simp only [chunkMsgs, List.mem_cons, List.not_mem_nil, or_false] at hm
        rw [hm] at heq
        exact Msg.noConfusion heq)

/-! ### Claim C6: the turn result is the arrival-ordered message sequence -/

/-- Claim C6 as stated is false: a `"model"` chunk whose last message is an
`AIMessage` with content-block content is not returned unmodified — the
runner replaces it with a fresh plain-text `AIMessage` (text blocks joined
by newlines), so the result differs from the flat stream contents. -/
theorem turn_result_cex :
    (runAgent displayInit
        [Chunk.model [Msg.ai (AIContent.blocks [Block.textB "hi"]) []]] none).1 ≠
      flatMessages [Chunk.model [Msg.ai (AIContent.blocks [Block.textB "hi"]) []]] := by
  decide

/-- Loop form: without cancellation and with no chunk triggering the
content-block normalization, the loop returns the accumulator followed by
every chunk's messages in arrival order. -/
theorem runLoop_messages (chunks : List Chunk) :
    ∀ (i : Nat) (acc : List Msg) (seen : List String) (d : DisplayState),
      noRewrite chunks →
      (runLoop none chunks i acc seen d).1 = acc ++ flatMessages chunks := by
  induction chunks with
  | nil =>
    intro i acc seen d _
    simp [runLoop, flatMessages]
  | cons c rest ih =>
    intro i acc seen d hnr
    cases c with
    | model msgs =>
      have hrw : rewriteModelMessages msgs = msgs := hnr msgs (by simp)
      show (runLoop none (Chunk.model msgs :: rest) i acc seen d).1 = _
      rw [runLoop]
      rw [if_neg (by simp [cancelSeenAt])]
      simp only [hrw]
      rw [ih (i + 1) (acc ++ msgs) _ _
        (fun m hm => hnr m (List.mem_cons.mpr (Or.inr hm)))]
      simp [flatMessages, List.append_assoc]
    | tools msgs =>
      rw [runLoop]
      rw [if_neg (by simp [cancelSeenAt])]
      rw [ih (i + 1) (acc ++ msgs) _ _
        (fun m hm => hnr m (List.mem_cons.mpr (Or.inr hm)))]
      simp [flatMessages, List.append_assoc]

/-- Claim C6, amended: for every finite stream consumed without
cancellation in which no `"model"` chunk ends with a content-block
`AIMessage` carrying nonempty text (the Responses-API normalization),
`run_agent_with_display` returns exactly the flat sequence of all
`AgentMessage`/`ToolResult` objects of the stream's chunks, in arrival
order, each unmodified. When the normalization fires, the trailing
`AIMessage` is replaced (`turn_result_cex`). -/
theorem turn_result_arrival_order (d0 : DisplayState) (chunks : List Chunk)
    (hnr : noRewrite chunks) :
    (runAgent d0 chunks none).1 = flatMessages chunks := by
  unfold runAgent
  rw [runLoop_messages chunks 0 [] [] (clearDisp d0) hnr]
  rfl

/-- Witness for `turn_result_arrival_order`: the spec's concrete scenario —
one `"model"` chunk with a new tool-call id `"c1"` followed by one
`"tools"` chunk with its result returns exactly those two messages in
arrival order, and `"c1"` was registered exactly once. -/
theorem turn_result_arrival_order_witness :
    (runAgent displayInit
        [Chunk.model [Msg.ai (AIContent.str "")
            [⟨"c1", "read_file", [("path", "test.txt")]⟩]],
          Chunk.tools [Msg.tool none (some "File contents") "c1"]] none).1 =
      [Msg.ai (AIContent.str "") [⟨"c1", "read_file", [("path", "test.txt")]⟩],
        Msg.tool none (some "File contents") "c1"] ∧
    registerCount "c1"
      (runAgent displayInit
          [Chunk.model [Msg.ai (AIContent.str "")
              [⟨"c1", "read_file", [("path", "test.txt")]⟩]],
            Chunk.tools [Msg.tool none (some "File contents") "c1"]] none).2.events = 1 := by
  constructor
  · have h := turn_result_arrival_order displayInit
      [Chunk.model [Msg.ai (AIContent.str "")
          [⟨"c1", "read_file", [("path", "test.txt")]⟩]],
        Chunk.tools [Msg.tool none (some "File contents") "c1"]]
      (by
        intro msgs hm
        simp only [List.mem_cons, List.not_mem_nil, or_false] at hm
        rcases hm with h1 | h1
        · have h2 : msgs = [Msg.ai (AIContent.str "")
              [⟨"c1", "read_file", [("path", "test.txt")]⟩]] := by
            injection h1
          rw [h2]
          decide
        · exact Chunk.noConfusion h1)
    rw [h]
    decide
  · decide

end AgentSpec
